import Mathlib

/-!
# ArgusDB — verification of the storage-and-query engine specification

A shallow embedding of the core of ArgusDB (an LSM-structured document
store) in Lean 4, together with proofs and refutations of the stated
properties of the engine.

Embedded components (file and symbol names follow the Rust source):
* the tagged JSON document value (`Value`, `Number` from `jsonb`),
* binary encoding/decoding of documents (modelled from the spec — the
  byte-level codec lives in the external `jsonb_schema` crate),
* the merged scan iterator (`MergedIterator` in `db.rs`),
* segment merging and compaction (`merge_jstables` in `jstable.rs`,
  `Collection::compact` in `db.rs`),
* memtable operations (`storage.rs`), flush, delete, get and recovery
  (`db.rs`),
* the sparse-index construction of the segment writer (`JSTable::write`),
* expression comparison semantics (`compare_values`, `evaluate_binary`
  in `query.rs`),
* collection-name sanitization (`sanitize_filename` in `db.rs`).

Conventions: machine integers are `Nat`/`Int` with explicit ranges;
`f64` values are carried as their 64-bit pattern (`Nat`); iterators are
lists; on-disk maps (`BTreeMap`) are strictly-sorted association lists.
Side effects (file IO, the write-ahead logger, tracing) are outside the
model; the functions below compute exactly what the engine computes on
the data that those effects transport.
-/

/-! ## The document value (`jsonb_schema::Value`, re-exported as `Value`)

The Rust type is `Null | Bool | Number | String | Array(Vec<Value>) |
Object(BTreeMap-like)`.  Arrays and objects are represented with
dedicated mutually-inductive list types so that every function on
values is compiled by structural recursion (hence reduces inside
`decide`/`rfl` proofs).  `Number` carries `Int64`, `UInt64` and
`Float64`; `Float64` is carried as its IEEE-754 bit pattern.  (The
crate also has decimal variants; nothing in the engine constructs
them, and the accessors below treat them as absent.) -/

inductive Number where
  | int64 (i : Int)
  | uint64 (u : Nat)
  | float64 (bits : Nat)
deriving DecidableEq, Repr

mutual

inductive Value where
  | null
  | bool (b : Bool)
  | number (n : Number)
  | string (s : String)
  | array (elems : ValueList)
  | object (fields : FieldList)
deriving Repr

inductive ValueList where
  | nil
  | cons (v : Value) (tl : ValueList)
deriving Repr

inductive FieldList where
  | nil
  | cons (k : String) (v : Value) (tl : FieldList)
deriving Repr

end

/-- `Value::is_null` of the `jsonb` crate. -/
def Value.isNull : Value → Bool
  | .null => true
  | _ => false

mutual

/-- Structural equality of documents (`PartialEq` on `jsonb` values). -/
def valueBeq : Value → Value → Bool
  | .null, .null => true
  | .bool a, .bool b => a == b
  | .number a, .number b => a == b
  | .string a, .string b => a == b
  | .array a, .array b => valueListBeq a b
  | .object a, .object b => fieldListBeq a b
  | _, _ => false

def valueListBeq : ValueList → ValueList → Bool
  | .nil, .nil => true
  | .cons a as, .cons b bs => valueBeq a b && valueListBeq as bs
  | _, _ => false

def fieldListBeq : FieldList → FieldList → Bool
  | .nil, .nil => true
  | .cons k a as, .cons k2 b bs => k == k2 && valueBeq a b && fieldListBeq as bs
  | _, _ => false

end

/-! ## The order on ids (`Ord` on Rust `String`)

Rust compares `String`s byte-lexicographically, which for UTF-8 is
exactly lexicographic comparison of code points.  Lean's built-in
`String` order is the same order but is not kernel-computable, so the
embedding carries its own transparent comparison. -/

def strLtAux : List Char → List Char → Bool
  | [], [] => false
  | [], _ :: _ => true
  | _ :: _, [] => false
  | c :: cs, d :: ds =>
    if c.toNat < d.toNat then true
    else if c.toNat = d.toNat then strLtAux cs ds
    else false

/-- `a < b` on Rust `String`s. -/
def strLt (a b : String) : Bool := strLtAux a.data b.data

/-! ## IEEE-754 double comparison and conversions (for `compare_values`)

`query.rs` compares numbers by first trying `i64` (`get_i64_from_number`)
and otherwise converting both sides to `f64` (`get_f64_from_number`) and
using `f64::partial_cmp`.  We model an `f64` by its bit pattern and
implement the exact IEEE-754 comparison and the exact `as f64`
(round-to-nearest, ties-to-even) integer conversions on patterns. -/

/-- Exponent field of an f64 bit pattern. -/
def f64Exponent (b : Nat) : Nat := (b / 2 ^ 52) % 2 ^ 11

/-- NaN test on an f64 bit pattern. -/
def f64IsNaN (b : Nat) : Bool := f64Exponent b == 2047 && b % 2 ^ 52 != 0

/-- Comparison of two `Nat`s as an `Ordering`. -/
def natCmp (a b : Nat) : Ordering :=
  if a < b then .lt else if a = b then .eq else .gt

/-- `f64::partial_cmp` on bit patterns: `none` iff either side is NaN;
`-0.0 == +0.0`; otherwise sign-magnitude comparison (which on IEEE-754
patterns is exactly numeric order, infinities included). -/
def f64PartialCmp (a b : Nat) : Option Ordering :=
  if f64IsNaN a || f64IsNaN b then none
  else
    let sa := a / 2 ^ 63 % 2
    let sb := b / 2 ^ 63 % 2
    let ma := a % 2 ^ 63
    let mb := b % 2 ^ 63
    if ma = 0 ∧ mb = 0 then some .eq
    else if sa ≠ sb then (if sa = 1 then some .lt else some .gt)
    else if sa = 0 then some (natCmp ma mb)
    else some (natCmp mb ma)

/-- Bit pattern of `n as f64` for `n : Nat` (round to nearest, ties to
even; exact for `n = 0` and never overflows below `2 ^ 1024`). -/
def natToF64Bits (n : Nat) : Nat :=
  if n = 0 then 0
  else
    let e := Nat.log2 n
    if e ≤ 52 then (1023 + e) * 2 ^ 52 + (n * 2 ^ (52 - e) - 2 ^ 52)
    else
      let sh := e - 52
      let q := n / 2 ^ sh
      let r := n % 2 ^ sh
      let q2 := if r > 2 ^ (sh - 1) ∨ (r = 2 ^ (sh - 1) ∧ q % 2 = 1) then q + 1 else q
      if q2 = 2 ^ 53 then (1024 + e) * 2 ^ 52
      else (1023 + e) * 2 ^ 52 + (q2 - 2 ^ 52)

/-- Bit pattern of `i as f64` for `i : Int` (sign-magnitude). -/
def intToF64Bits (i : Int) : Nat :=
  if i < 0 then 2 ^ 63 + natToF64Bits i.natAbs else natToF64Bits i.natAbs

/-! ## `query.rs`: number accessors, `compare_values`, `evaluate_binary` -/

/-- `get_i64_from_number`: `Int64` passes through, `UInt64` via
`i64::try_from`, everything else is `None`. -/
def get_i64_from_number : Number → Option Int
  | .int64 i => some i
  | .uint64 u => if u ≤ 2 ^ 63 - 1 then some (u : Int) else none
  | .float64 _ => none

/-- `get_f64_from_number`: integer variants via `as f64`, floats pass
through (as bit patterns). -/
def get_f64_from_number : Number → Option Nat
  | .int64 i => some (intToF64Bits i)
  | .uint64 u => some (natToF64Bits u)
  | .float64 bits => some bits

/-- `Ord::cmp` on `i64`. -/
def intCmp (a b : Int) : Ordering :=
  if a < b then .lt else if a = b then .eq else .gt

/-- `Ord::cmp` on `bool` (`false < true`). -/
def boolCmp (a b : Bool) : Ordering :=
  match a, b with
  | false, true => .lt
  | true, false => .gt
  | _, _ => .eq

/-- `Ord::cmp` on Rust `String` (byte-lexicographic, which for UTF-8
coincides with code-point-lexicographic order). -/
def stringCmp (a b : String) : Ordering :=
  if strLt a b then .lt else if a = b then .eq else .gt

/-- `compare_values` from `query.rs`: numbers by `i64` when both convert,
else by `f64` `partial_cmp`; strings and bools by `Ord`; every other
pairing is `None`. -/
def compare_values : Value → Value → Option Ordering
  | .number n1, .number n2 =>
    match get_i64_from_number n1, get_i64_from_number n2 with
    | some i1, some i2 => some (intCmp i1 i2)
    | _, _ =>
      match get_f64_from_number n1, get_f64_from_number n2 with
      | some f1, some f2 => f64PartialCmp f1 f2
      | _, _ => none
  | .string s1, .string s2 => some (stringCmp s1 s2)
  | .bool b1, .bool b2 => some (boolCmp b1 b2)
  | _, _ => none

inductive BinaryOperator where
  | eq | neq | lt | lte | gt | gte
deriving DecidableEq, Repr

/-- `evaluate_binary` from `query.rs`: `Eq`/`Neq` by structural equality,
the four ordering operators through `compare_values`, with an undefined
comparison collapsing to `Bool(false)`. -/
def evaluate_binary (left : Value) (op : BinaryOperator) (right : Value) : Value :=
  match op with
  | .eq => .bool (valueBeq left right)
  | .neq => .bool (!valueBeq left right)
  | .lt =>
    match compare_values left right with
    | some o => .bool (o == .lt)
    | none => .bool false
  | .lte =>
    match compare_values left right with
    | some o => .bool (o != .gt)
    | none => .bool false
  | .gt =>
    match compare_values left right with
    | some o => .bool (o == .gt)
    | none => .bool false
  | .gte =>
    match compare_values left right with
    | some o => .bool (o != .lt)
    | none => .bool false

/-- Discriminators used to phrase "both operands are numbers" etc. -/
def Value.isNumber : Value → Bool
  | .number _ => true
  | _ => false

def Value.isString : Value → Bool
  | .string _ => true
  | _ => false

def Value.isBool : Value → Bool
  | .bool _ => true
  | _ => false

/-! ## `db.rs`: `sanitize_filename` -/

/-- One lowercase hex digit. -/
def hexChar (n : Nat) : Char :=
  if n < 10 then Char.ofNat (48 + n) else Char.ofNat (87 + n)

/-- Minimal-length lowercase hex digits of `n` (fuel-structured so that
it reduces; `fuel = n + 1` always suffices). -/
def toHexAux : Nat → Nat → List Char
  | 0, _ => []
  | fuel + 1, n =>
    if n < 16 then [hexChar n] else toHexAux fuel (n / 16) ++ [hexChar (n % 16)]

def toHex (n : Nat) : List Char := toHexAux (n + 1) n

/-- `format!("{:02x}", c as u32)`: lowercase hex, zero-padded on the left
to at least two digits (longer when the value needs more digits). -/
def hexPad2 (n : Nat) : List Char :=
  let ds := toHex n
  if ds.length < 2 then '0' :: ds else ds

/-- `sanitize_filename` from `db.rs`: iterate the *characters* of the
name; ASCII-alphanumeric characters pass through, every other character
becomes `'_'` followed by `format!("{:02x}")` of its code point. -/
def sanitize_filename (name : String) : String :=
  ⟨(name.data.map fun c =>
      if c.isAlphanum then [c] else '_' :: hexPad2 c.toNat).flatten⟩

/-- UTF-8 encoding of one code point (as byte values). -/
def utf8Char (n : Nat) : List Nat :=
  if n < 0x80 then [n]
  else if n < 0x800 then [0xC0 + n / 64, 0x80 + n % 64]
  else if n < 0x10000 then [0xE0 + n / 4096, 0x80 + n / 64 % 64, 0x80 + n % 64]
  else [0xF0 + n / 262144, 0x80 + n / 4096 % 64, 0x80 + n / 64 % 64, 0x80 + n % 64]

/-- UTF-8 bytes of a string. -/
def utf8Bytes (s : String) : List Nat :=
  (s.data.map fun c => utf8Char c.toNat).flatten

/-- The claim's reading of the spec sentence, rendered literally: walk
the UTF-8 *bytes* of the name and replace every non-alphanumeric byte
with `'_'` plus *exactly two* lowercase hex digits. -/
def sanitizeClaimTwoHexBytes (name : String) : String :=
  ⟨((utf8Bytes name).map fun n =>
      if (48 ≤ n ∧ n ≤ 57) ∨ (65 ≤ n ∧ n ≤ 90) ∨ (97 ≤ n ∧ n ≤ 122) then
        [Char.ofNat n]
      else
        ['_', hexChar (n / 16), hexChar (n % 16)]).flatten⟩

/-! ## Sorted association lists (the `BTreeMap<String, Value>` model)

`MemTable::documents` and `JSTable::documents` are `BTreeMap`s; we
model them as association lists whose keys are strictly increasing.
`assocLookup` is `BTreeMap::get` (also: scanning a record stream for an
exact id match), `insertSorted` is `BTreeMap::insert`, `assocErase` is
`BTreeMap::remove`. -/

abbrev Doc := String × Value

def assocLookup : List Doc → String → Option Value
  | [], _ => none
  | (k, v) :: t, id => if k = id then some v else assocLookup t id

def insertSorted (k : String) (v : Value) : List Doc → List Doc
  | [] => [(k, v)]
  | (k0, v0) :: t =>
    if strLt k k0 then (k, v) :: (k0, v0) :: t
    else if k = k0 then (k, v) :: t
    else (k0, v0) :: insertSorted k v t

def assocErase : List Doc → String → List Doc
  | [], _ => []
  | (k, v) :: t, id => if k = id then t else (k, v) :: assocErase t id

/-- Keys strictly ascending: the `BTreeMap` iteration-order invariant. -/
def SortedKeys (l : List Doc) : Prop :=
  l.Pairwise (fun a b => strLt a.1 b.1 = true)

/-- Drop tombstones: `retain(|_, v| !matches!(v, Null))`. -/
def retainNonNull (l : List Doc) : List Doc :=
  l.filter fun p => !p.2.isNull

/-! ## The merged scan iterator (`MergedIterator` in `db.rs`)

A source is one peekable iterator of `(id, document)` pairs — the
memtable iterator or one segment iterator — represented by the list of
its remaining items.  `peekMin` is the first loop of `next()` (minimum
of the peeked ids), `consumeRound` the second (pop every source whose
head carries that id, keep the value of the first such source), and
`mergedRun` iterates `next()` to exhaustion.  `mergedRun` is expressed
with explicit fuel so that it is structurally recursive; one round
always consumes at least one item, so `totalLen` fuel suffices. -/

abbrev Source := List Doc

def headKey (s : Source) : Option String := s.head?.map Prod.fst

def updateMin (acc : Option String) : Option String → Option String
  | none => acc
  | some k =>
    match acc with
    | none => some k
    | some m => if strLt k m then some k else some m

def peekMinAux (acc : Option String) : List Source → Option String
  | [] => acc
  | s :: ss => peekMinAux (updateMin acc (headKey s)) ss

def peekMin (sources : List Source) : Option String := peekMinAux none sources

/-- Pop every source whose peeked id equals `m`; the retained value is
the one from the first (highest-priority) matching source. -/
def consumeRound (m : String) : List Source → Option Value × List Source
  | [] => (none, [])
  | s :: ss =>
    match s with
    | (k, v) :: t =>
      if k = m then
        let p := consumeRound m ss
        (some v, t :: p.2)
      else
        let p := consumeRound m ss
        (p.1, ((k, v) :: t) :: p.2)
    | [] =>
      let p := consumeRound m ss
      (p.1, [] :: p.2)

def totalLen (sources : List Source) : Nat :=
  (sources.map List.length).sum

def mergedRun : Nat → List Source → List Doc
  | 0, _ => []
  | fuel + 1, sources =>
    match peekMin sources with
    | none => []
    | some m =>
      let p := consumeRound m sources
      match p.1 with
      | some v => if v.isNull then mergedRun fuel p.2 else (m, v) :: mergedRun fuel p.2
      | none => mergedRun fuel p.2

/-- The full output of the merged iterator. -/
def mergedAll (sources : List Source) : List Doc :=
  mergedRun (totalLen sources) sources

/-- The value a given id resolves to: the first source (in priority
order) holding the id supplies it.  This is the shadowing rule the
claims are stated against. -/
def firstHit : List Source → String → Option Value
  | [], _ => none
  | s :: ss, id =>
    match assocLookup s id with
    | some v => some v
    | none => firstHit ss id

/-! ## Segments (`JSTable`) and `merge_jstables` (`jstable.rs`)

The `schema` field is an opaque per-segment summary (out of scope per
the specification) and is omitted from the model. -/

structure JSTable where
  timestamp : Nat
  collection : String
  documents : List Doc
deriving Repr

/-- Stable insertion into a timestamp-sorted list: the inserted table
goes before the first table with an equal-or-larger timestamp.  Folding
this from the right is a stable sort, which is exactly what
`sort_by_key` (a stable sort) computes. -/
def insertByTs (t : JSTable) : List JSTable → List JSTable
  | [] => [t]
  | u :: us =>
    if u.timestamp < t.timestamp then u :: insertByTs t us else t :: u :: us

/-- `sorted_tables.sort_by_key(|t| t.timestamp)` (stable). -/
def sortByTs (tables : List JSTable) : List JSTable :=
  tables.foldr insertByTs []

/-- Insert every document of `t` into the accumulator map. -/
def insertAllDocs (acc : List Doc) (t : JSTable) : List Doc :=
  t.documents.foldl (fun m p => insertSorted p.1 p.2 m) acc

/-- `merge_jstables`: sort by timestamp (stable), take the collection
name from the first table of the *original* slice, accumulate the
maximum timestamp, overlay the document maps in sorted order (later
insert wins), and finally drop tombstones. -/
def merge_jstables (tables : List JSTable) : JSTable :=
  let sorted := sortByTs tables
  let collection :=
    match tables.head? with
    | some first => first.collection
    | none => ""
  let maxTs := sorted.foldl (fun acc t => if t.timestamp > acc then t.timestamp else acc) 0
  let docs := sorted.foldl insertAllDocs []
  ⟨maxTs, collection, retainNonNull docs⟩

/-- The winning `(timestamp, value)` for an id across a slice of
segments, worded as in the claim: the table with the greatest
timestamp wins, and on equal timestamps the table appearing *later* in
the slice wins (an earlier table only beats the rest on a strictly
larger timestamp). -/
def claimWinner : List JSTable → String → Option (Nat × Value)
  | [], _ => none
  | t :: rest, id =>
    match claimWinner rest id, assocLookup t.documents id with
    | none, none => none
    | none, some v => some (t.timestamp, v)
    | some (ts, v), none => some (ts, v)
    | some (ts, v), some vt =>
      if t.timestamp > ts then some (t.timestamp, vt) else some (ts, v)

/-- How many of the given segments contain the id. -/
def countContaining (tables : List JSTable) (id : String) : Nat :=
  (tables.filter fun t => (assocLookup t.documents id).isSome).length

/-! ## MemTable operations (`storage.rs`) and the log (`log.rs`)

`MemTable::insert`/`_update` put `(id, doc)` into the map;
`MemTable::_delete` *removes* the entry (`self.documents.remove(id)`).
The logger is IO-only and carries no state the model needs. -/

def memtableInsert (mt : List Doc) (id : String) (doc : Value) : List Doc :=
  insertSorted id doc mt

/-- `MemTable::delete` / `_delete` from `storage.rs`: the entry is
removed from the map (no tombstone is written). -/
def memtableDelete (mt : List Doc) (id : String) : List Doc :=
  assocErase mt id

inductive Operation where
  | insert (id : String) (doc : Value)
  | update (id : String) (doc : Value)
  | delete (id : String)
deriving Repr

structure LogEntry where
  ts : Nat
  op : Operation
deriving Repr

/-- One replayed log line during `DB::new` recovery (`db.rs`): `Insert`
and `Update` put the document into the memtable, `Delete` applies
`MemTable::delete`. -/
def applyOp (mt : List Doc) : Operation → List Doc
  | .insert id doc => memtableInsert mt id doc
  | .update id doc => memtableInsert mt id doc
  | .delete id => memtableDelete mt id

/-- Recovery replay over the parsed log lines, in file order.  A line is
`some entry` when `serde_json::from_str::<LogEntry>` succeeds and `none`
when the line is malformed; malformed lines are skipped. -/
def replayLog (lines : List (Option LogEntry)) : List Doc :=
  lines.foldl (fun mt l => match l with | some e => applyOp mt e.op | none => mt) []

/-! ## The collection (`Collection` in `db.rs`)

`segments` is the generation list, oldest first (`jstable-0` …), kept in
sync with `jstable_count = segments.length`.  `filters` holds one
membership predicate per generation, aligned by index.  The real filter
is a `BinaryFuse8` over the hashes of the exact key set — no false
negatives, occasional false positives; the model built by flush/compact
uses exact membership (a false positive only makes `get` scan a segment
that then yields no match, which the code already handles by falling
through to the next generation). -/

structure Collection where
  name : String
  memtable : List Doc
  segments : List JSTable
  filters : List (String → Bool)
  memtableThreshold : Nat
  jstableThreshold : Nat

/-- The filter flush/compact loads for a freshly written segment:
membership in its exact key set. -/
def segFilter (t : JSTable) : String → Bool :=
  fun id => (t.documents.map Prod.fst).contains id

/-- `Collection::delete`: log (no model state), then `MemTable::delete`. -/
def collectionDelete (c : Collection) (id : String) : Collection :=
  { c with memtable := memtableDelete c.memtable id }

/-- `Collection::update`: log, then put `(id, doc)` into the memtable. -/
def collectionUpdate (c : Collection) (id : String) (doc : Value) : Collection :=
  { c with memtable := memtableInsert c.memtable id doc }

/-- Walk the generations newest → oldest (`for i in (0..count).rev()`):
consult the filter; on a possible hit scan the segment's records for the
exact id; a found tombstone answers `None`, a found document answers
`Some`, no match falls through to the next generation. -/
def getFromSegments : List (JSTable × (String → Bool)) → String → Option Value
  | [], _ => none
  | (seg, f) :: rest, id =>
    if f id then
      match assocLookup seg.documents id with
      | some doc => if doc.isNull then none else some doc
      | none => getFromSegments rest id
    else getFromSegments rest id

/-- `Collection::get`: the memtable answers first (a present tombstone
is `None`), then the generations newest → oldest. -/
def collectionGet (c : Collection) (id : String) : Option Value :=
  match assocLookup c.memtable id with
  | some doc => if doc.isNull then none else some doc
  | none => getFromSegments ((c.segments.zip c.filters).reverse) id

/-- `Collection::compact`: read every generation, merge, rewrite as the
single generation 0, reload the filter list, set the count to 1. -/
def collectionCompact (c : Collection) : Collection :=
  let merged := merge_jstables c.segments
  { c with segments := [merged], filters := [segFilter merged] }

/-- `Collection::flush`: write the memtable as generation `count` (with
a wall-clock timestamp `ts`), load its filter, bump the count, replace
the memtable with a fresh one, rotate the log, and compact when the new
count reaches the compaction threshold. -/
def collectionFlush (c : Collection) (ts : Nat) : Collection :=
  let seg : JSTable := ⟨ts, c.name, c.memtable⟩
  let c1 := { c with
    segments := c.segments ++ [seg]
    filters := c.filters ++ [segFilter seg]
    memtable := [] }
  if c1.segments.length ≥ c.jstableThreshold then collectionCompact c1 else c1

/-- `Collection::scan`: the merged iterator over the memtable iterator
(priority 0) followed by the segment iterators newest → oldest. -/
def collectionScan (c : Collection) : List Doc :=
  mergedAll (c.memtable :: (c.segments.map JSTable.documents).reverse)

/-! ## The database map (`DB` in `db.rs`), as far as C7 needs it -/

structure DB where
  collections : List (String × Collection)

/-- `DB::create_collection`: refuse an existing name, otherwise create
the collection in the directory named by `sanitize_filename` and file
it in the map under the *original* name. -/
def createCollection (db : DB) (name : String) (memThr jstThr : Nat) :
    Except String (DB × String) :=
  if (db.collections.map Prod.fst).contains name then
    .error "already exists"
  else
    let dir := sanitize_filename name
    .ok ({ collections := db.collections ++ [(name, ⟨name, [], [], [], memThr, jstThr⟩)] }, dir)

/-- `DB::show_collections`: the keys of the collection map. -/
def showCollections (db : DB) : List String :=
  db.collections.map Prod.fst

/-! ## The binary document codec — modelled from the spec

`Modelled from the spec:` the byte-level `encode`/`decode` of the tagged
document sum live in the external `jsonb_schema` crate, not under
`src/`; the specification promises only a total `encode(V) → bytes`,
`decode(bytes) → V` pair with `decode(encode(V)) == V`, a tagged binary
layout, and (for `.data` records) that each record is the encoded pair
`(id, value)`.  We realise that contract with a tag byte followed by
fixed-width little-endian payloads; strings carry a length and their
code points, containers carry an element count.  `f64` payloads are the
stored bit patterns. -/

/-- Little-endian bytes, `w` of them, of `n` (used with `n < 2 ^ (8 w)`). -/
def leBytes : Nat → Nat → List Nat
  | 0, _ => []
  | w + 1, n => n % 256 :: leBytes w (n / 256)

/-- Read `w` little-endian bytes into a `Nat`, returning the rest. -/
def readLE : Nat → List Nat → Option (Nat × List Nat)
  | 0, bytes => some (0, bytes)
  | w + 1, bytes =>
    match bytes with
    | [] => none
    | b :: rest =>
      match readLE w rest with
      | some (n, rest2) => some (b % 256 + 256 * n, rest2)
      | none => none

def encodeChar (c : Char) : List Nat := leBytes 4 c.toNat

def encodeStrChars : List Char → List Nat
  | [] => []
  | c :: cs => encodeChar c ++ encodeStrChars cs

/-- A string payload: 8-byte length, then 4 bytes per code point. -/
def encodeStr (s : String) : List Nat :=
  leBytes 8 s.data.length ++ encodeStrChars s.data

def decodeChars : Nat → List Nat → Option (List Char × List Nat)
  | 0, bytes => some ([], bytes)
  | cnt + 1, bytes =>
    match readLE 4 bytes with
    | some (n, rest) =>
      match decodeChars cnt rest with
      | some (cs, rest2) => some (Char.ofNat n :: cs, rest2)
      | none => none
    | none => none

def decodeStr (bytes : List Nat) : Option (String × List Nat) :=
  match readLE 8 bytes with
  | some (len, rest) =>
    match decodeChars len rest with
    | some (cs, rest2) => some (⟨cs⟩, rest2)
    | none => none
  | none => none

/-- Two's-complement 8-byte image of an `i64`. -/
def encodeI64 (i : Int) : List Nat :=
  leBytes 8 (i % (2 ^ 64 : Int)).toNat

mutual

/-- `encode(V) → bytes` (modelled from the spec, see above): a tag byte
then the payload; arrays and objects are count-prefixed. -/
def encodeVal : Value → List Nat
  | .null => [0]
  | .bool b => [1, if b then 1 else 0]
  | .number (.int64 i) => 2 :: encodeI64 i
  | .number (.uint64 u) => 3 :: leBytes 8 u
  | .number (.float64 bits) => 4 :: leBytes 8 bits
  | .string s => 5 :: encodeStr s
  | .array vs => 6 :: leBytes 8 (valueListLength vs) ++ encodeValueList vs
  | .object fs => 7 :: leBytes 8 (fieldListLength fs) ++ encodeFieldList fs

def encodeValueList : ValueList → List Nat
  | .nil => []
  | .cons v vs => encodeVal v ++ encodeValueList vs

def encodeFieldList : FieldList → List Nat
  | .nil => []
  | .cons k v fs => encodeStr k ++ encodeVal v ++ encodeFieldList fs

def valueListLength : ValueList → Nat
  | .nil => 0
  | .cons _ vs => valueListLength vs + 1

def fieldListLength : FieldList → Nat
  | .nil => 0
  | .cons _ _ fs => fieldListLength fs + 1

end

mutual

/-- Fueled decoder: tag byte, then payload.  `decodeVal` consumes fuel on
every value; a value occupies at least one byte, so fuel equal to the
input length always suffices (see `decode`). -/
def decodeVal : Nat → List Nat → Option (Value × List Nat)
  | 0, _ => none
  | fuel + 1, bytes =>
    match bytes with
    | 0 :: rest => some (.null, rest)
    | 1 :: b :: rest => some (.bool (b != 0), rest)
    | 2 :: rest =>
      match readLE 8 rest with
      | some (n, rest2) =>
        some (.number (.int64 (if n < 2 ^ 63 then (n : Int) else (n : Int) - 2 ^ 64)), rest2)
      | none => none
    | 3 :: rest =>
      match readLE 8 rest with
      | some (n, rest2) => some (.number (.uint64 n), rest2)
      | none => none
    | 4 :: rest =>
      match readLE 8 rest with
      | some (n, rest2) => some (.number (.float64 n), rest2)
      | none => none
    | 5 :: rest =>
      match decodeStr rest with
      | some (s, rest2) => some (.string s, rest2)
      | none => none
    | 6 :: rest =>
      match readLE 8 rest with
      | some (cnt, rest2) =>
        match decodeValueList fuel cnt rest2 with
        | some (vs, rest3) => some (.array vs, rest3)
        | none => none
      | none => none
    | 7 :: rest =>
      match readLE 8 rest with
      | some (cnt, rest2) =>
        match decodeFieldList fuel cnt rest2 with
        | some (fs, rest3) => some (.object fs, rest3)
        | none => none
      | none => none
    | _ => none

def decodeValueList : Nat → Nat → List Nat → Option (ValueList × List Nat)
  | 0, _, _ => none
  | _ + 1, 0, bytes => some (.nil, bytes)
  | fuel + 1, cnt + 1, bytes =>
    match decodeVal fuel bytes with
    | some (v, rest) =>
      match decodeValueList fuel cnt rest with
      | some (vs, rest2) => some (.cons v vs, rest2)
      | none => none
    | none => none

def decodeFieldList : Nat → Nat → List Nat → Option (FieldList × List Nat)
  | 0, _, _ => none
  | _ + 1, 0, bytes => some (.nil, bytes)
  | fuel + 1, cnt + 1, bytes =>
    match decodeStr bytes with
    | some (k, rest) =>
      match decodeVal fuel rest with
      | some (v, rest2) =>
        match decodeFieldList fuel cnt rest2 with
        | some (fs, rest3) => some (.cons k v fs, rest3)
        | none => none
      | none => none
    | none => none

end

/-- `decode(bytes) → V`: run the fueled decoder and require the input to
be consumed exactly.  Twice the input length bounds the recursion depth
of any successful decode (each value node owns at least one byte and
each list node at most doubles the count — see `sizeVal_le_encLen`). -/
def decode (bytes : List Nat) : Option Value :=
  match decodeVal (2 * bytes.length) bytes with
  | some (v, []) => some v
  | _ => none

mutual

/-- Well-formed documents: every machine integer fits its width.  (The
Rust types carry these bounds intrinsically: `i64`, `u64`, f64 bit
patterns, and `usize` container lengths.) -/
def Value.wf : Value → Bool
  | .null => true
  | .bool _ => true
  | .number (.int64 i) => decide (-(2 ^ 63) ≤ i ∧ i < 2 ^ 63)
  | .number (.uint64 u) => decide (u < 2 ^ 64)
  | .number (.float64 bits) => decide (bits < 2 ^ 64)
  | .string s => decide (s.data.length < 2 ^ 64)
  | .array vs => decide (valueListLength vs < 2 ^ 64) && ValueList.wf vs
  | .object fs => decide (fieldListLength fs < 2 ^ 64) && FieldList.wf fs

def ValueList.wf : ValueList → Bool
  | .nil => true
  | .cons v vs => v.wf && ValueList.wf vs

def FieldList.wf : FieldList → Bool
  | .nil => true
  | .cons k v fs => decide (k.data.length < 2 ^ 64) && v.wf && FieldList.wf fs

end

mutual

/-- Number of value nodes; a lower bound for the decoder fuel. -/
def sizeVal : Value → Nat
  | .array vs => sizeValueList vs + 1
  | .object fs => sizeFieldList fs + 1
  | _ => 1

def sizeValueList : ValueList → Nat
  | .nil => 1
  | .cons v vs => sizeVal v + sizeValueList vs + 1

def sizeFieldList : FieldList → Nat
  | .nil => 1
  | .cons _ v fs => sizeVal v + sizeFieldList fs + 1

end

/-! ## Segment records (`JSTable::write` / `JSTableIterator::next`)

A `.data` record is the binary encoding of the pair `(id, value)` —
in `jsonb` terms a two-element array `[String(id), value]`.  The
iterator decodes the blob, demands a two-element array, and yields
`(id, doc)`. -/

/-- The record blob the segment writer produces for one document. -/
def writeRecord (id : String) (doc : Value) : List Nat :=
  encodeVal (.array (.cons (.string id) (.cons doc .nil)))

/-- `JSTableIterator::next` materialization: decode the record blob and
take the pair apart. -/
def materializeRecord (bytes : List Nat) : Option (String × Value) :=
  match decode bytes with
  | some (.array (.cons (.string id) (.cons doc .nil))) => some (id, doc)
  | _ => none

/-! ## The sparse index of the segment writer (`JSTable::write`)

The writer walks the documents in ascending id order; before writing a
record it appends `(id, current_offset)` to the index when this is the
very first record or when at least `index_threshold` bytes were written
since the last index entry, and then advances both byte counters by the
record's length (4-byte length prefix plus blob). -/

structure WState where
  idx : List (String × Nat)
  off : Nat
  since : Nat
  first : Bool

def writeStep (thr : Nat) (st : WState) (rec : Doc) : WState :=
  let st1 :=
    if st.first || st.since ≥ thr then
      { st with idx := st.idx ++ [(rec.1, st.off)], since := 0, first := false }
    else st
  let written := 4 + (writeRecord rec.1 rec.2).length
  { st1 with off := st1.off + written, since := st1.since + written }

/-- The sparse index `JSTable::write` leaves in the `.summary` file. -/
def buildIndex (thr : Nat) (docs : List Doc) : List (String × Nat) :=
  (docs.foldl (writeStep thr) ⟨[], 0, 0, true⟩).idx

/-- The amended description of sanitization (cf. `c7` below): keep
ASCII-alphanumeric *characters*; replace every other character by an
underscore and the minimal lowercase-hex form of its code point,
zero-padded on the left to at least two digits. -/
def sanitizeAmendedSpec (name : String) : String :=
  ⟨(name.data.map fun c =>
      if ('0' ≤ c ∧ c ≤ '9') ∨ ('A' ≤ c ∧ c ≤ 'Z') ∨ ('a' ≤ c ∧ c ≤ 'z') then [c]
      else '_' :: (if c.toNat < 16 then '0' :: toHex c.toNat else toHex c.toNat)).flatten⟩

/-- Concrete fixtures for the C2 evaluation. -/
def c2doc : Value := .number (.int64 1)

def c2seg : JSTable := ⟨0, "t", [("a", c2doc)]⟩

/-- A collection whose only copy of id `"a"` lives in an on-disk
segment (the memtable is empty, e.g. right after a flush). -/
def c2col : Collection := ⟨"t", [], [c2seg], [segFilter c2seg], 10, 5⟩

/-- Concrete fixture for the C3 counterexample: one existing segment
and a compaction threshold of 2. -/
def c3col : Collection :=
  ⟨"t", [("x", Value.number (.int64 1))], [⟨0, "t", [("a", Value.number (.int64 2))]⟩],
    [segFilter ⟨0, "t", [("a", Value.number (.int64 2))]⟩], 10, 2⟩

/-- Concrete fixture for the C5 evaluation: a log whose last operation
on id `"a"` is a `Delete`, followed by one malformed line. -/
def c5lines : List (Option LogEntry) :=
  [some ⟨0, .insert "a" (.number (.int64 7))⟩, some ⟨1, .delete "a"⟩, none]

/-- Concrete fixtures for the C10 counterexample: the same id in two
segments, the newer holding a tombstone. -/
def c10older : JSTable := ⟨100, "c", [("id1", .number (.int64 1))]⟩

def c10newer : JSTable := ⟨200, "c", [("id1", .null)]⟩

/-- Concrete fixture for the C4 witness: a collection holding the two
fixture segments. -/
def c4col : Collection :=
  ⟨"c", [], [c10older, c10newer], [segFilter c10older, segFilter c10newer], 10, 5⟩

/-- Concrete fixture for the C1 witness: a memtable entry, an older
segment with a tombstone and a live record, and a newer segment
shadowing the tombstoned id with a live document. -/
def c1segOld : JSTable := ⟨0, "t", [("a", .null), ("c", .number (.int64 2))]⟩

def c1segNew : JSTable := ⟨5, "t", [("a", .number (.int64 9))]⟩

def c1col : Collection :=
  ⟨"t", [("b", .number (.int64 1))], [c1segOld, c1segNew],
    [segFilter c1segOld, segFilter c1segNew], 10, 5⟩

/-- The head value of the first source whose peeked id is `m` — the
value one round of the merged iterator retains. -/
def firstHeadVal (m : String) : List Source → Option Value
  | [] => none
  | s :: ss =>
    match s with
    | (k, v) :: _ => if k = m then some v else firstHeadVal m ss
    | [] => firstHeadVal m ss

/-- Pop the head of a source when its peeked id is `m`. -/
def popIf (m : String) (s : Source) : Source :=
  match s with
  | (k, v) :: t => if k = m then t else (k, v) :: t
  | [] => []

/-- The positionally-last hit for an id in a list of segments: later
tables win outright.  On a timestamp-sorted (stable) list this is the
conflict resolution `merge_jstables` implements. -/
def lastHitTV : List JSTable → String → Option (Nat × Value)
  | [], _ => none
  | t :: rest, id =>
    match lastHitTV rest id with
    | some p => some p
    | none =>
      match assocLookup t.documents id with
      | some v => some (t.timestamp, v)
      | none => none

/-! # Theorems -/

/-! ## Helper lemmas -/

theorem compare_values_none (l r : Value)
    (hn : ¬(l.isNumber ∧ r.isNumber)) (hs : ¬(l.isString ∧ r.isString))
    (hb : ¬(l.isBool ∧ r.isBool)) : compare_values l r = none := by
  cases l <;> cases r <;>
    simp_all [compare_values, Value.isNumber, Value.isString, Value.isBool]

theorem isAlphanum_iff (c : Char) : c.isAlphanum = true ↔
    (('0' ≤ c ∧ c ≤ '9') ∨ ('A' ≤ c ∧ c ≤ 'Z') ∨ ('a' ≤ c ∧ c ≤ 'z')) := by
  simp [Char.isAlphanum, Char.isAlpha, Char.isDigit, Char.isUpper, Char.isLower,
    Char.le_def]
  tauto

theorem toHexAux_ne_nil (fuel n : Nat) (h : 1 ≤ fuel) : toHexAux fuel n ≠ [] := by
  cases fuel with
  | zero => omega
  | succ f =>
    unfold toHexAux
    split
    · simp
    · simp

theorem toHex_length_one_iff (n : Nat) : (toHex n).length = 1 ↔ n < 16 := by
  unfold toHex toHexAux
  split
  · simp
    omega
  · rename_i h
    simp only [List.length_append, List.length_singleton]
    have h2 : toHexAux n (n / 16) ≠ [] := by
      apply toHexAux_ne_nil
      omega
    have h3 : 0 < (toHexAux n (n / 16)).length := List.length_pos.mpr h2
    omega

theorem hexPad2_eq (n : Nat) :
    hexPad2 n = if n < 16 then '0' :: toHex n else toHex n := by
  unfold hexPad2
  have hne : toHex n ≠ [] := toHexAux_ne_nil _ _ (by omega)
  have hpos : 0 < (toHex n).length := List.length_pos.mpr hne
  by_cases h : n < 16
  · have : (toHex n).length = 1 := (toHex_length_one_iff n).mpr h
    simp [h, this]
  · have : (toHex n).length ≠ 1 := fun hc => h ((toHex_length_one_iff n).mp hc)
    have : ¬(toHex n).length < 2 := by omega
    simp [h, this]

/-! ## C7 — collection-name sanitization -/

/-- C7 (counterexample): the claim says every non-alphanumeric *byte*
becomes an underscore plus *exactly two* lowercase hex digits; on the
one-character name `"€"` (three UTF-8 bytes, code point `0x20AC`) the
code instead produces one underscore and four digits, so the two
readings disagree. -/
theorem c7_counterexample :
    sanitize_filename "€" = "_20ac" ∧
    sanitizeClaimTwoHexBytes "€" = "_e2_82_ac" ∧
    sanitize_filename "€" ≠ sanitizeClaimTwoHexBytes "€" := by
  refine ⟨by decide, by decide, by decide⟩

/-- C7 (amended): the sanitized name keeps ASCII-alphanumeric
*characters* and replaces every other character with an underscore
followed by the character's code point in lowercase hex, zero-padded to
at least two digits (more digits when the code point needs them);
`"user/data"` maps to `"user_2fdata"`; and `show_collections` still
returns the original unsanitized name after `create_collection` files
the collection under it. -/
theorem c7_amended :
    (∀ name : String, sanitize_filename name = sanitizeAmendedSpec name) ∧
    sanitize_filename "user/data" = "user_2fdata" ∧
    (∀ (db : DB) (name : String) (memThr jstThr : Nat) (db2 : DB) (dir : String),
      createCollection db name memThr jstThr = .ok (db2, dir) →
      dir = sanitize_filename name ∧ name ∈ showCollections db2) := by
  refine ⟨?_, by decide, ?_⟩
  · intro name
    unfold sanitize_filename sanitizeAmendedSpec
    congr 1
    congr 1
    apply List.map_congr_left
    intro c _
    rw [hexPad2_eq]
    by_cases h : c.isAlphanum
    · rw [if_pos ((isAlphanum_iff c).mp h)]
      simp [h]
    · rw [if_neg (fun hc => h ((isAlphanum_iff c).mpr hc))]
      simp [h]
  · intro db name memThr jstThr db2 dir h
    unfold createCollection at h
    split at h
    · cases h
    · simp only [Except.ok.injEq, Prod.mk.injEq] at h
      obtain ⟨hdb, hdir⟩ := h
      refine ⟨hdir.symm, ?_⟩
      rw [← hdb]
      simp [showCollections]

/-- C7 witness: the amended theorem applied to creating `"user/data"`
in an empty database. -/
theorem c7_witness :
    createCollection ⟨[]⟩ "user/data" 10 5 =
      .ok (⟨[("user/data", ⟨"user/data", [], [], [], 10, 5⟩)]⟩, "user_2fdata") ∧
    "user_2fdata" = sanitize_filename "user/data" ∧
    "user/data" ∈ showCollections ⟨[("user/data", ⟨"user/data", [], [], [], 10, 5⟩)]⟩ := by
  have h : createCollection ⟨[]⟩ "user/data" 10 5 =
      .ok (⟨[("user/data", ⟨"user/data", [], [], [], 10, 5⟩)]⟩, "user_2fdata") := rfl
  refine ⟨h, ?_, ?_⟩
  · exact (c7_amended.2.2 ⟨[]⟩ "user/data" 10 5
      ⟨[("user/data", ⟨"user/data", [], [], [], 10, 5⟩)]⟩ "user_2fdata" h).1
  · exact (c7_amended.2.2 ⟨[]⟩ "user/data" 10 5
      ⟨[("user/data", ⟨"user/data", [], [], [], 10, 5⟩)]⟩ "user_2fdata" h).2

/-! ## C8 — mixed-type ordering comparisons -/

/-- C8: for operands of incomparable types — any pairing that is not
number/number, string/string or bool/bool, in particular whenever
either operand is null, an array or an object — every ordering
comparison (`Lt`, `Lte`, `Gt`, `Gte`) evaluates to `Bool(false)`;
`evaluate_binary` is total, so no error is possible. -/
theorem c8_mixed_ordering_comparisons_false (l r : Value) (op : BinaryOperator)
    (hop : op = .lt ∨ op = .lte ∨ op = .gt ∨ op = .gte)
    (hn : ¬(l.isNumber ∧ r.isNumber)) (hs : ¬(l.isString ∧ r.isString))
    (hb : ¬(l.isBool ∧ r.isBool)) :
    evaluate_binary l op r = .bool false := by
  have hcmp := compare_values_none l r hn hs hb
  rcases hop with h | h | h | h <;> subst h <;> simp [evaluate_binary, hcmp]

/-- C8 witness: a number compared to a string, and null compared to an
array. -/
theorem c8_witness :
    ((BinaryOperator.lt = .lt ∨ BinaryOperator.lt = .lte ∨
        BinaryOperator.lt = .gt ∨ BinaryOperator.lt = .gte) ∧
      ¬((Value.number (.int64 1)).isNumber ∧ (Value.string "a").isNumber) ∧
      ¬((Value.number (.int64 1)).isString ∧ (Value.string "a").isString) ∧
      ¬((Value.number (.int64 1)).isBool ∧ (Value.string "a").isBool) ∧
      evaluate_binary (.number (.int64 1)) .lt (.string "a") = .bool false) ∧
    evaluate_binary .null .gte (.array .nil) = .bool false := by
  refine ⟨⟨Or.inl rfl, by decide, by decide, by decide, ?_⟩, ?_⟩
  · exact c8_mixed_ordering_comparisons_false _ _ _ (Or.inl rfl) (by decide) (by decide)
      (by decide)
  · exact c8_mixed_ordering_comparisons_false _ _ _ (Or.inr (Or.inr (Or.inr rfl)))
      (by decide) (by decide) (by decide)

/-! ## C2 — delete followed by get -/

/-- C2 (code evaluated at the failing input): id `"a"` has been flushed
into a segment and the memtable is empty; `delete("a")` then `get("a")`
returns the *old document*, not `None`.  `MemTable::delete`
(`storage.rs`) removes the entry instead of writing a null tombstone,
so nothing shadows the segment copy — contradicting the engine's own
tests (`test_db_recover` in `db.rs`, `tombstone_test.rs`), which assert
a null tombstone after a delete. -/
theorem c2_delete_get_resurrects :
    collectionGet (collectionDelete c2col "a") "a" = some c2doc ∧
    collectionGet (collectionDelete c2col "a") "a" ≠ none := by
  refine ⟨rfl, ?_⟩
  intro h
  rw [show collectionGet (collectionDelete c2col "a") "a" = some c2doc from rfl] at h
  cases h

/-! ## C3 — flush postcondition -/

/-- C3 (counterexample): with one existing segment and a compaction
threshold of 2, `flush()` ends with segment count 1, not the claimed
`1 + 1 = 2` — the count bump reached the threshold and the tail of
`flush` compacted everything back into a single segment. -/
theorem c3_counterexample :
    c3col.segments.length = 1 ∧
    (collectionFlush c3col 7).segments.length = 1 ∧
    (collectionFlush c3col 7).segments.length ≠ c3col.segments.length + 1 := by
  refine ⟨rfl, rfl, ?_⟩
  intro h
  rw [show (collectionFlush c3col 7).segments.length = 1 from rfl,
    show c3col.segments.length = 1 from rfl] at h
  omega

/-- C3 (amended): after `flush()` the memtable is always empty; the
segment count is the old count plus one *except* when that bumped count
reaches the compaction threshold, in which case the trailing
compaction leaves exactly one segment. -/
theorem c3_amended (c : Collection) (ts : Nat) :
    (collectionFlush c ts).memtable = [] ∧
    (collectionFlush c ts).segments.length =
      (if c.segments.length + 1 ≥ c.jstableThreshold then 1 else c.segments.length + 1) := by
  unfold collectionFlush collectionCompact
  by_cases h : c.segments.length + 1 ≥ c.jstableThreshold
  · simp [h]
  · simp [h]

/-! ## C5 — recovery replay -/

/-- C5 (code evaluated at the failing input): replaying a log whose
last operation for id `"a"` is `Delete` (followed by one malformed,
skipped line) leaves a memtable with *no entry at all* for `"a"` — not
the null tombstone the claim (and the engine's own `test_db_recover`,
which asserts `memtable.documents.get(&id).unwrap().is_null()`)
requires, because the replay's `Delete` arm calls `MemTable::delete`,
which removes the entry. -/
theorem c5_replay_drops_tombstone :
    replayLog c5lines = [] ∧
    assocLookup (replayLog c5lines) "a" = none ∧
    assocLookup (replayLog c5lines) "a" ≠ some .null := by
  refine ⟨rfl, rfl, ?_⟩
  intro h
  rw [show assocLookup (replayLog c5lines) "a" = none from rfl] at h
  cases h

/-! ## C6 — the sparse index of the segment writer -/

theorem writeStep_inv (thr : Nat) (h0 : String × Nat) (st : WState) (rec : Doc)
    (hfirst : st.first = false)
    (hhead : st.idx.head? = some h0)
    (hlast : ∃ k L, st.idx.getLast? = some (k, L) ∧ st.off = L + st.since)
    (hchain : List.Chain' (fun a b => a.2 + thr ≤ b.2) st.idx) :
    (writeStep thr st rec).first = false ∧
    (writeStep thr st rec).idx.head? = some h0 ∧
    (∃ k L, (writeStep thr st rec).idx.getLast? = some (k, L) ∧
      (writeStep thr st rec).off = L + (writeStep thr st rec).since) ∧
    List.Chain' (fun a b => a.2 + thr ≤ b.2) (writeStep thr st rec).idx := by
  obtain ⟨k, L, hl, hoff⟩ := hlast
  have hne : st.idx ≠ [] := by
    intro hnil
    rw [hnil] at hl
    cases hl
  unfold writeStep
  rw [hfirst]
  simp only [Bool.false_or]
  by_cases hth : st.since ≥ thr
  · rw [if_pos (by simp [hth])]
    refine ⟨rfl, ?_, ?_, ?_⟩
    · rw [List.head?_append_of_ne_nil _ hne]
      exact hhead
    · refine ⟨rec.1, st.off, ?_, ?_⟩
      · simp [List.getLast?_append]
      · simp
    · simp only [List.chain'_append]
      refine ⟨hchain, List.chain'_singleton _, ?_⟩
      intro x hx y hy
      rw [hl] at hx
      simp at hx hy
      subst hx
      subst hy
      simp
      omega
  · rw [if_neg (by simp [hth])]
    refine ⟨hfirst, hhead, ⟨k, L, hl, ?_⟩, hchain⟩
    show st.off + _ = L + (st.since + _)
    omega

theorem writeFold_inv (thr : Nat) (h0 : String × Nat) (docs : List Doc) (st : WState)
    (hfirst : st.first = false)
    (hhead : st.idx.head? = some h0)
    (hlast : ∃ k L, st.idx.getLast? = some (k, L) ∧ st.off = L + st.since)
    (hchain : List.Chain' (fun a b => a.2 + thr ≤ b.2) st.idx) :
    (docs.foldl (writeStep thr) st).idx.head? = some h0 ∧
    List.Chain' (fun a b => a.2 + thr ≤ b.2) (docs.foldl (writeStep thr) st).idx := by
  induction docs generalizing st with
  | nil => exact ⟨hhead, hchain⟩
  | cons d ds ih =>
    obtain ⟨h1, h2, h3, h4⟩ := writeStep_inv thr h0 st d hfirst hhead hlast hchain
    exact ih (writeStep thr st d) h1 h2 h3 h4

/-- C6: for a non-empty document map and any `index_threshold`, the
sparse index written by `JSTable::write` starts with the first
document's id at byte offset 0, and each consecutive pair of indexed
offsets is at least `index_threshold` bytes apart. -/
theorem c6_sparse_index (thr : Nat) (docs : List Doc) (h : docs ≠ []) :
    (buildIndex thr docs).head? = some ((docs.head h).1, 0) ∧
    List.Chain' (fun a b => a.2 + thr ≤ b.2) (buildIndex thr docs) := by
  match docs with
  | d :: ds =>
    unfold buildIndex
    rw [List.foldl_cons]
    have hstep : writeStep thr ⟨[], 0, 0, true⟩ d =
        ⟨[(d.1, 0)], 4 + (writeRecord d.1 d.2).length, 4 + (writeRecord d.1 d.2).length,
          false⟩ := by
      unfold writeStep
      simp
    rw [hstep]
    exact writeFold_inv thr (d.1, 0) ds _ rfl rfl ⟨d.1, 0, rfl, by simp⟩
      (List.chain'_singleton _)

/-- C6 witness: three records and a threshold of 30 (each record is 35
bytes); every record is indexed and the offsets are 0, 35, 70. -/
theorem c6_witness :
    ([("a", Value.number (.int64 1)), ("b", Value.number (.int64 2)),
        ("c", Value.number (.int64 3))] ≠ ([] : List Doc)) ∧
    (buildIndex 30 [("a", Value.number (.int64 1)), ("b", Value.number (.int64 2)),
        ("c", Value.number (.int64 3))]).head? = some ("a", 0) ∧
    List.Chain' (fun a b => a.2 + 30 ≤ b.2)
      (buildIndex 30 [("a", Value.number (.int64 1)), ("b", Value.number (.int64 2)),
        ("c", Value.number (.int64 3))]) := by
  have h : ([("a", Value.number (.int64 1)), ("b", Value.number (.int64 2)),
      ("c", Value.number (.int64 3))] : List Doc) ≠ [] := by simp
  have := c6_sparse_index 30 [("a", Value.number (.int64 1)), ("b", Value.number (.int64 2)),
    ("c", Value.number (.int64 3))] h
  exact ⟨h, this.1, this.2⟩

/-! ## C9 — binary codec round trip -/

theorem leBytes_length (w n : Nat) : (leBytes w n).length = w := by
  induction w generalizing n with
  | zero => rfl
  | succ k ih => simp [leBytes, ih]

theorem readLE_leBytes (w n : Nat) (rest : List Nat) (h : n < 2 ^ (8 * w)) :
    readLE w (leBytes w n ++ rest) = some (n, rest) := by
  induction w generalizing n with
  | zero =>
    simp [leBytes, readLE]
    omega
  | succ k ih =>
    have hdiv : n / 256 < 2 ^ (8 * k) := by
      rw [Nat.div_lt_iff_lt_mul (by omega)]
      calc n < 2 ^ (8 * (k + 1)) := h
        _ = 2 ^ (8 * k) * 256 := by ring
    simp only [leBytes, readLE, List.cons_append]
    rw [ih (n / 256) hdiv]
    simp
    omega

theorem char_toNat_lt (c : Char) : c.toNat < 2 ^ 32 := by
  have := c.val.toNat_lt
  simpa [Char.toNat] using this

theorem decodeChars_encodeStrChars (cs : List Char) (rest : List Nat) :
    decodeChars cs.length (encodeStrChars cs ++ rest) = some (cs, rest) := by
  induction cs with
  | nil => rfl
  | cons c cs ih =>
    simp only [List.length_cons, encodeStrChars, List.append_assoc]
    show decodeChars (cs.length + 1) (encodeChar c ++ (encodeStrChars cs ++ rest)) = _
    unfold decodeChars
    unfold encodeChar
    rw [readLE_leBytes 4 c.toNat _ (char_toNat_lt c)]
    simp only [ih, Char.ofNat_toNat]

theorem decodeStr_encodeStr (s : String) (rest : List Nat)
    (h : s.data.length < 2 ^ 64) :
    decodeStr (encodeStr s ++ rest) = some (s, rest) := by
  unfold decodeStr encodeStr
  rw [List.append_assoc, readLE_leBytes 8 s.data.length _ (by omega)]
  simp only [decodeChars_encodeStrChars]

theorem sizeVal_pos (v : Value) : 1 ≤ sizeVal v := by
  cases v <;> simp [sizeVal]

theorem sizeValueList_pos (vs : ValueList) : 1 ≤ sizeValueList vs := by
  cases vs <;> simp [sizeValueList]

theorem sizeFieldList_pos (fs : FieldList) : 1 ≤ sizeFieldList fs := by
  cases fs <;> simp [sizeFieldList]

theorem size_le_encLen_aux (fuel : Nat) :
    (∀ v : Value, sizeVal v ≤ fuel → sizeVal v + 1 ≤ 2 * (encodeVal v).length) ∧
    (∀ vs : ValueList, sizeValueList vs ≤ fuel →
      sizeValueList vs ≤ 2 * (encodeValueList vs).length + 2) ∧
    (∀ fs : FieldList, sizeFieldList fs ≤ fuel →
      sizeFieldList fs ≤ 2 * (encodeFieldList fs).length + 2) := by
  induction fuel with
  | zero =>
    refine ⟨fun v h => ?_, fun vs h => ?_, fun fs h => ?_⟩
    · have := sizeVal_pos v
      omega
    · have := sizeValueList_pos vs
      omega
    · have := sizeFieldList_pos fs
      omega
  | succ f ih =>
    obtain ⟨ihv, ihl, ihf⟩ := ih
    refine ⟨fun v h => ?_, fun vs h => ?_, fun fs h => ?_⟩
    · cases v with
      | null => simp [sizeVal, encodeVal]
      | bool b => simp [sizeVal, encodeVal]
      | number n => cases n <;> simp [sizeVal, encodeVal, encodeI64, leBytes_length]
      | string s => simp [sizeVal, encodeVal]
      | array vs =>
        have hvs : sizeValueList vs ≤ f := by
          simp [sizeVal] at h
          omega
        have := ihl vs hvs
        simp [sizeVal, encodeVal, leBytes_length]
        omega
      | object fs =>
        have hfs : sizeFieldList fs ≤ f := by
          simp [sizeVal] at h
          omega
        have := ihf fs hfs
        simp [sizeVal, encodeVal, leBytes_length]
        omega
    · cases vs with
      | nil => simp [sizeValueList]
      | cons v tl =>
        have h1 : sizeVal v ≤ f := by
          have := sizeValueList_pos tl
          simp [sizeValueList] at h
          omega
        have h2 : sizeValueList tl ≤ f := by
          have := sizeVal_pos v
          simp [sizeValueList] at h
          omega
        have := ihv v h1
        have := ihl tl h2
        simp [sizeValueList, encodeValueList]
        omega
    · cases fs with
      | nil => simp [sizeFieldList]
      | cons k v tl =>
        have h1 : sizeVal v ≤ f := by
          have := sizeFieldList_pos tl
          simp [sizeFieldList] at h
          omega
        have h2 : sizeFieldList tl ≤ f := by
          have := sizeVal_pos v
          simp [sizeFieldList] at h
          omega
        have := ihv v h1
        have := ihf tl h2
        simp [sizeFieldList, encodeFieldList]
        omega

theorem sizeVal_le_encLen (v : Value) : sizeVal v + 1 ≤ 2 * (encodeVal v).length :=
  (size_le_encLen_aux (sizeVal v)).1 v le_rfl

theorem decodeVal_tag2 (f : Nat) (bs : List Nat) :
    decodeVal (f + 1) (2 :: bs) =
      (match readLE 8 bs with
        | some (n, rest2) =>
          some (.number (.int64 (if n < 2 ^ 63 then (n : Int) else (n : Int) - 2 ^ 64)), rest2)
        | none => none) := rfl

theorem decodeVal_tag3 (f : Nat) (bs : List Nat) :
    decodeVal (f + 1) (3 :: bs) =
      (match readLE 8 bs with
        | some (n, rest2) => some (.number (.uint64 n), rest2)
        | none => none) := rfl

theorem decodeVal_tag4 (f : Nat) (bs : List Nat) :
    decodeVal (f + 1) (4 :: bs) =
      (match readLE 8 bs with
        | some (n, rest2) => some (.number (.float64 n), rest2)
        | none => none) := rfl

theorem decodeVal_tag5 (f : Nat) (bs : List Nat) :
    decodeVal (f + 1) (5 :: bs) =
      (match decodeStr bs with
        | some (s, rest2) => some (.string s, rest2)
        | none => none) := rfl

theorem decodeVal_tag6 (f : Nat) (bs : List Nat) :
    decodeVal (f + 1) (6 :: bs) =
      (match readLE 8 bs with
        | some (cnt, rest2) =>
          match decodeValueList f cnt rest2 with
          | some (vs, rest3) => some (.array vs, rest3)
          | none => none
        | none => none) := rfl

theorem decodeVal_tag7 (f : Nat) (bs : List Nat) :
    decodeVal (f + 1) (7 :: bs) =
      (match readLE 8 bs with
        | some (cnt, rest2) =>
          match decodeFieldList f cnt rest2 with
          | some (fs, rest3) => some (.object fs, rest3)
          | none => none
        | none => none) := rfl

theorem decodeValueList_succ (f cnt : Nat) (bs : List Nat) :
    decodeValueList (f + 1) (cnt + 1) bs =
      (match decodeVal f bs with
        | some (v, rest) =>
          match decodeValueList f cnt rest with
          | some (vs, rest2) => some (.cons v vs, rest2)
          | none => none
        | none => none) := rfl

theorem decodeFieldList_succ (f cnt : Nat) (bs : List Nat) :
    decodeFieldList (f + 1) (cnt + 1) bs =
      (match decodeStr bs with
        | some (k, rest) =>
          match decodeVal f rest with
          | some (v, rest2) =>
            match decodeFieldList f cnt rest2 with
            | some (fs, rest3) => some (.cons k v fs, rest3)
            | none => none
          | none => none
        | none => none) := rfl

theorem int64_image_lt (i : Int) : (i % (2 ^ 64 : Int)).toNat < 2 ^ 64 := by
  omega

theorem int64_bits_inv (i : Int) (h1 : -(2 ^ 63) ≤ i) (h2 : i < 2 ^ 63) :
    (if (i % (2 ^ 64 : Int)).toNat < 2 ^ 63 then (((i % (2 ^ 64 : Int)).toNat) : Int)
      else (((i % (2 ^ 64 : Int)).toNat) : Int) - 2 ^ 64) = i := by
  omega

theorem decode_encode_aux (fuel : Nat) :
    (∀ (v : Value) (rest : List Nat), sizeVal v ≤ fuel → v.wf = true →
      decodeVal fuel (encodeVal v ++ rest) = some (v, rest)) ∧
    (∀ (vs : ValueList) (rest : List Nat), sizeValueList vs ≤ fuel → ValueList.wf vs = true →
      decodeValueList fuel (valueListLength vs) (encodeValueList vs ++ rest) =
        some (vs, rest)) ∧
    (∀ (fs : FieldList) (rest : List Nat), sizeFieldList fs ≤ fuel → FieldList.wf fs = true →
      decodeFieldList fuel (fieldListLength fs) (encodeFieldList fs ++ rest) =
        some (fs, rest)) := by
  induction fuel with
  | zero =>
    refine ⟨fun v rest h _ => ?_, fun vs rest h _ => ?_, fun fs rest h _ => ?_⟩
    · have := sizeVal_pos v
      omega
    · have := sizeValueList_pos vs
      omega
    · have := sizeFieldList_pos fs
      omega
  | succ f ih =>
    obtain ⟨ihv, ihl, ihf⟩ := ih
    refine ⟨fun v rest h hwf => ?_, fun vs rest h hwf => ?_, fun fs rest h hwf => ?_⟩
    · cases v with
      | null => rfl
      | bool b => cases b <;> rfl
      | number n =>
        cases n with
        | int64 i =>
          have hr : -(2 ^ 63) ≤ i ∧ i < 2 ^ 63 := by
            simpa [Value.wf] using hwf
          simp only [encodeVal, encodeI64, List.cons_append]
          rw [decodeVal_tag2]
          rw [readLE_leBytes 8 _ _ (by simpa using int64_image_lt i)]
          simp only [int64_bits_inv i hr.1 hr.2]
        | uint64 u =>
          have hr : u < 2 ^ 64 := by
            simpa [Value.wf] using hwf
          simp only [encodeVal, List.cons_append]
          rw [decodeVal_tag3]
          rw [readLE_leBytes 8 _ _ (by simpa using hr)]
        | float64 bits =>
          have hr : bits < 2 ^ 64 := by
            simpa [Value.wf] using hwf
          simp only [encodeVal, List.cons_append]
          rw [decodeVal_tag4]
          rw [readLE_leBytes 8 _ _ (by simpa using hr)]
      | string s =>
        have hr : s.data.length < 2 ^ 64 := by
          simpa [Value.wf] using hwf
        simp only [encodeVal, List.cons_append]
        rw [decodeVal_tag5]
        rw [decodeStr_encodeStr s rest hr]
      | array vs =>
        simp only [Value.wf, Bool.and_eq_true, decide_eq_true_eq] at hwf
        have hsz : sizeValueList vs ≤ f := by
          simp [sizeVal] at h
          omega
        simp only [encodeVal, List.cons_append, List.append_assoc]
        rw [decodeVal_tag6]
        rw [readLE_leBytes 8 _ _ (by simpa using hwf.1)]
        simp only [ihl vs rest hsz hwf.2]
      | object fs =>
        simp only [Value.wf, Bool.and_eq_true, decide_eq_true_eq] at hwf
        have hsz : sizeFieldList fs ≤ f := by
          simp [sizeVal] at h
          omega
        simp only [encodeVal, List.cons_append, List.append_assoc]
        rw [decodeVal_tag7]
        rw [readLE_leBytes 8 _ _ (by simpa using hwf.1)]
        simp only [ihf fs rest hsz hwf.2]
    · cases vs with
      | nil => rfl
      | cons v tl =>
        simp only [ValueList.wf, Bool.and_eq_true] at hwf
        have h1 : sizeVal v ≤ f := by
          have := sizeValueList_pos tl
          simp [sizeValueList] at h
          omega
        have h2 : sizeValueList tl ≤ f := by
          have := sizeVal_pos v
          simp [sizeValueList] at h
          omega
        simp only [encodeValueList, valueListLength, List.append_assoc]
        rw [decodeValueList_succ]
        rw [ihv v _ h1 hwf.1]
        simp only [ihl tl rest h2 hwf.2]
    · cases fs with
      | nil => rfl
      | cons k v tl =>
        simp only [FieldList.wf, Bool.and_eq_true, decide_eq_true_eq] at hwf
        have h1 : sizeVal v ≤ f := by
          have := sizeFieldList_pos tl
          simp [sizeFieldList] at h
          omega
        have h2 : sizeFieldList tl ≤ f := by
          have := sizeVal_pos v
          simp [sizeFieldList] at h
          omega
        simp only [encodeFieldList, fieldListLength, List.append_assoc]
        rw [decodeFieldList_succ]
        rw [decodeStr_encodeStr k _ hwf.1.1]
        simp only [ihv v _ h1 hwf.1.2, ihf tl rest h2 hwf.2]

/-- C9: `decode(encode(V)) == V` for every (well-formed: machine
integers within their widths) value of the tagged document sum, and a
record written by the segment writer materializes back through the
segment iterator as the same `(id, document)` pair.  The codec is the
one modelled from the spec (see the codec section). -/
theorem c9_roundtrip :
    (∀ v : Value, v.wf = true → decode (encodeVal v) = some v) ∧
    (∀ (id : String) (doc : Value), id.data.length < 2 ^ 64 → doc.wf = true →
      materializeRecord (writeRecord id doc) = some (id, doc)) := by
  have main : ∀ v : Value, v.wf = true → decode (encodeVal v) = some v := by
    intro v hwf
    unfold decode
    have hsz : sizeVal v ≤ 2 * (encodeVal v).length := by
      have := sizeVal_le_encLen v
      omega
    have := (decode_encode_aux (2 * (encodeVal v).length)).1 v [] hsz hwf
    rw [List.append_nil] at this
    rw [this]
  refine ⟨main, fun id doc hid hdoc => ?_⟩
  have hwf : (Value.array (.cons (.string id) (.cons doc .nil))).wf = true := by
    simp [Value.wf, ValueList.wf, valueListLength, hdoc]
    simpa using hid
  have hdec := main _ hwf
  unfold materializeRecord writeRecord
  rw [hdec]

/-- C9 witness: a nested object containing every scalar shape. -/
theorem c9_witness :
    ((Value.object (.cons "a" (.number (.int64 (-5)))
        (.cons "b" (.array (.cons (.string "x") (.cons (.bool true)
          (.cons (.number (.uint64 7)) (.cons (.number (.float64 4638387860618067575))
            .nil))))) .nil))).wf = true ∧
      decode (encodeVal (Value.object (.cons "a" (.number (.int64 (-5)))
        (.cons "b" (.array (.cons (.string "x") (.cons (.bool true)
          (.cons (.number (.uint64 7)) (.cons (.number (.float64 4638387860618067575))
            .nil))))) .nil)))) =
        some (Value.object (.cons "a" (.number (.int64 (-5)))
          (.cons "b" (.array (.cons (.string "x") (.cons (.bool true)
            (.cons (.number (.uint64 7)) (.cons (.number (.float64 4638387860618067575))
              .nil))))) .nil)))) ∧
    (("id9" : String).data.length < 2 ^ 64 ∧
      materializeRecord (writeRecord "id9" (.number (.int64 3))) =
        some ("id9", .number (.int64 3))) := by
  refine ⟨⟨by decide, ?_⟩, by decide, ?_⟩
  · exact c9_roundtrip.1 _ (by decide)
  · exact c9_roundtrip.2 "id9" (.number (.int64 3)) (by decide) (by decide)

/-! ## Order facts for `strLt` -/

theorem char_toNat_inj (c d : Char) (h : c.toNat = d.toNat) : c = d := by
  apply Char.ext
  have h2 : c.val.toNat = d.val.toNat := h
  exact UInt32.toNat.inj h2

theorem strLtAux_irrefl (l : List Char) : strLtAux l l = false := by
  induction l with
  | nil => rfl
  | cons c cs ih => simp [strLtAux, ih]

theorem strLt_irrefl (a : String) : strLt a a = false := strLtAux_irrefl a.data

theorem strLtAux_trans (a b c : List Char) (h1 : strLtAux a b = true)
    (h2 : strLtAux b c = true) : strLtAux a c = true := by
  induction a generalizing b c with
  | nil =>
    cases c with
    | nil =>
      cases b with
      | nil => exact h1
      | cons y ys => cases h2
    | cons z zs => rfl
  | cons x xs ih =>
    cases b with
    | nil => cases h1
    | cons y ys =>
      cases c with
      | nil => cases h2
      | cons z zs =>
        simp only [strLtAux] at h1 h2 ⊢
        by_cases hxy : x.toNat < y.toNat
        · by_cases hyz : y.toNat < z.toNat
          · simp [show x.toNat < z.toNat by omega]
          · simp only [if_pos hxy] at h1
            by_cases hyz2 : y.toNat = z.toNat
            · simp [show x.toNat < z.toNat by omega]
            · simp [hyz, hyz2] at h2
        · simp only [if_neg hxy] at h1
          by_cases hxy2 : x.toNat = y.toNat
          · simp only [if_pos hxy2] at h1
            by_cases hyz : y.toNat < z.toNat
            · simp [show x.toNat < z.toNat by omega]
            · simp only [if_neg hyz] at h2
              by_cases hyz2 : y.toNat = z.toNat
              · have hxz : ¬x.toNat < z.toNat := by omega
                have hxz2 : x.toNat = z.toNat := by omega
                simp only [if_pos hyz2] at h2
                simp only [if_neg hxz, if_pos hxz2]
                exact ih ys zs h1 h2
              · simp [hyz2] at h2
          · simp [hxy2] at h1

theorem strLt_trans (a b c : String) (h1 : strLt a b = true) (h2 : strLt b c = true) :
    strLt a c = true := strLtAux_trans a.data b.data c.data h1 h2

theorem strLtAux_conn (a b : List Char) (h1 : strLtAux a b = false)
    (h2 : strLtAux b a = false) : a = b := by
  induction a generalizing b with
  | nil =>
    cases b with
    | nil => rfl
    | cons y ys => cases h1
  | cons x xs ih =>
    cases b with
    | nil => cases h2
    | cons y ys =>
      simp only [strLtAux] at h1 h2
      by_cases hxy : x.toNat < y.toNat
      · simp [hxy] at h1
      · by_cases hyx : y.toNat < x.toNat
        · simp [hyx] at h2
        · have heq : x.toNat = y.toNat := by omega
          simp only [if_neg hxy, if_pos heq] at h1
          simp only [if_neg hyx, if_pos heq.symm] at h2
          rw [char_toNat_inj x y heq, ih ys h1 h2]

theorem strLt_conn (a b : String) (h1 : strLt a b = false) (h2 : strLt b a = false) :
    a = b := by
  have h3 := strLtAux_conn a.data b.data h1 h2
  cases a
  cases b
  simp only at h3
  rw [h3]

theorem strLt_ne (a b : String) (h : strLt a b = true) : a ≠ b := by
  intro hc
  subst hc
  rw [strLt_irrefl] at h
  cases h

theorem strLt_asymm (a b : String) (h : strLt a b = true) : strLt b a = false := by
  cases hc : strLt b a with
  | false => rfl
  | true =>
    have := strLt_trans a b a h hc
    rw [strLt_irrefl] at this
    cases this

/-! ## C10 / C4 — segment merging and compaction -/

theorem lookup_insertSorted (k : String) (v : Value) (m : List Doc) (id : String) :
    assocLookup (insertSorted k v m) id = if k = id then some v else assocLookup m id := by
  induction m with
  | nil => simp [insertSorted, assocLookup]
  | cons p t ih =>
    obtain ⟨k0, v0⟩ := p
    unfold insertSorted
    by_cases h1 : strLt k k0 = true
    · simp only [if_pos h1]
      unfold assocLookup
      rfl
    · rw [if_neg h1]
      by_cases h2 : k = k0
      · rw [if_pos h2]
        unfold assocLookup
        by_cases h3 : k = id
        · simp [h3]
        · have : k0 ≠ id := fun hc => h3 (h2.trans hc)
          simp [h3, this]
      · rw [if_neg h2]
        unfold assocLookup
        by_cases h3 : k0 = id
        · have : k ≠ id := fun hc => h2 (hc.trans h3.symm)
          simp [h3, this]
        · simp [h3, ih]

theorem mem_insertSorted (k : String) (v : Value) (m : List Doc) (b : Doc)
    (h : b ∈ insertSorted k v m) : b = (k, v) ∨ b ∈ m := by
  induction m with
  | nil =>
    simp [insertSorted] at h
    exact Or.inl h
  | cons q s ihq =>
    obtain ⟨kq, vq⟩ := q
    unfold insertSorted at h
    by_cases hq1 : strLt k kq = true
    · rw [if_pos hq1] at h
      rcases List.mem_cons.mp h with h | h
      · exact Or.inl h
      · exact Or.inr h
    · rw [if_neg hq1] at h
      by_cases hq2 : k = kq
      · rw [if_pos hq2] at h
        rcases List.mem_cons.mp h with h | h
        · exact Or.inl h
        · exact Or.inr (List.mem_cons_of_mem _ h)
      · rw [if_neg hq2] at h
        rcases List.mem_cons.mp h with h | h
        · exact Or.inr (by rw [h]; exact List.mem_cons_self _ _)
        · rcases ihq h with h | h
          · exact Or.inl h
          · exact Or.inr (List.mem_cons_of_mem _ h)

theorem insertSorted_sortedKeys (k : String) (v : Value) (m : List Doc)
    (h : SortedKeys m) : SortedKeys (insertSorted k v m) := by
  induction m with
  | nil => simp [insertSorted, SortedKeys]
  | cons p t ih =>
    obtain ⟨k0, v0⟩ := p
    rw [SortedKeys, List.pairwise_cons] at h
    obtain ⟨hall, ht⟩ := h
    unfold insertSorted
    by_cases h1 : strLt k k0 = true
    · rw [if_pos h1]
      rw [SortedKeys, List.pairwise_cons]
      constructor
      · intro b hb
        rcases List.mem_cons.mp hb with hb | hb
        · rw [hb]
          exact h1
        · exact strLt_trans _ _ _ h1 (hall b hb)
      · rw [List.pairwise_cons]
        exact ⟨hall, ht⟩
    · rw [if_neg h1]
      by_cases h2 : k = k0
      · rw [if_pos h2]
        rw [SortedKeys, List.pairwise_cons]
        subst h2
        exact ⟨hall, ht⟩
      · rw [if_neg h2]
        rw [Bool.not_eq_true] at h1
        have h3 : strLt k0 k = true := by
          cases hc : strLt k0 k
          · exact absurd (strLt_conn k k0 h1 hc) h2
          · rfl
        rw [SortedKeys, List.pairwise_cons]
        constructor
        · intro b hb
          rcases mem_insertSorted k v t b hb with hb2 | hb2
          · rw [hb2]
            exact h3
          · exact hall b hb2
        · exact ih ht

theorem assocLookup_cons (k : String) (v : Value) (t : List Doc) (id : String) :
    assocLookup ((k, v) :: t) id = if k = id then some v else assocLookup t id := rfl

theorem lookup_eq_none_iff (m : List Doc) (id : String) :
    assocLookup m id = none ↔ id ∉ m.map Prod.fst := by
  induction m with
  | nil => simp [assocLookup]
  | cons p t ih =>
    obtain ⟨k, v⟩ := p
    rw [assocLookup_cons]
    by_cases h : k = id
    · simp [h]
    · rw [if_neg h, ih]
      simp only [List.map_cons, List.mem_cons]
      constructor
      · intro hni hc
        rcases hc with hc | hc
        · exact h hc.symm
        · exact hni hc
      · intro hni hc
        exact hni (Or.inr hc)

theorem sortedKeys_nodup (m : List Doc) (h : SortedKeys m) : (m.map Prod.fst).Nodup := by
  have h2 : (m.map Prod.fst).Pairwise (fun a b => strLt a b = true) :=
    (List.pairwise_map).mpr h
  exact h2.imp (fun hlt => strLt_ne _ _ hlt)

theorem retainNonNull_cons (p : Doc) (t : List Doc) :
    retainNonNull (p :: t) =
      if p.2.isNull then retainNonNull t else p :: retainNonNull t := by
  unfold retainNonNull
  rw [List.filter_cons]
  by_cases h : p.2.isNull <;> simp [h]

theorem lookup_retainNonNull (m : List Doc) (id : String)
    (hnd : (m.map Prod.fst).Nodup) :
    assocLookup (retainNonNull m) id =
      match assocLookup m id with
      | some v => if v.isNull then none else some v
      | none => none := by
  induction m with
  | nil => rfl
  | cons p t ih =>
    obtain ⟨k, v⟩ := p
    simp only [List.map_cons, List.nodup_cons] at hnd
    obtain ⟨hk, hnd⟩ := hnd
    rw [retainNonNull_cons]
    by_cases hn : v.isNull
    · rw [if_pos hn, ih hnd]
      by_cases h : k = id
      · subst h
        have hnone : assocLookup t k = none := (lookup_eq_none_iff t k).mpr hk
        rw [hnone, assocLookup_cons, if_pos rfl]
        simp [hn]
      · rw [assocLookup_cons, if_neg h]
    · rw [if_neg hn]
      by_cases h : k = id
      · rw [assocLookup_cons, assocLookup_cons, if_pos h, if_pos h]
        simp [hn]
      · rw [assocLookup_cons, assocLookup_cons, if_neg h, if_neg h, ih hnd]

theorem lookup_insertFold (docs : List Doc) (m : List Doc) (id : String)
    (hnd : (docs.map Prod.fst).Nodup) :
    assocLookup (docs.foldl (fun acc p => insertSorted p.1 p.2 acc) m) id =
      match assocLookup docs id with
      | some v => some v
      | none => assocLookup m id := by
  induction docs generalizing m with
  | nil => rfl
  | cons p t ih =>
    obtain ⟨k, v⟩ := p
    simp only [List.map_cons, List.nodup_cons] at hnd
    obtain ⟨hk, hnd⟩ := hnd
    rw [List.foldl_cons, ih _ hnd]
    by_cases h : k = id
    · subst h
      have hnone : assocLookup t k = none := (lookup_eq_none_iff t k).mpr hk
      rw [hnone, assocLookup_cons, if_pos rfl, lookup_insertSorted, if_pos rfl]
    · rw [assocLookup_cons, if_neg h]
      cases hl : assocLookup t id with
      | some w => rfl
      | none => simp only [lookup_insertSorted, if_neg h]

theorem insertFold_sortedKeys (docs : List Doc) (m : List Doc) (h : SortedKeys m) :
    SortedKeys (docs.foldl (fun acc p => insertSorted p.1 p.2 acc) m) := by
  induction docs generalizing m with
  | nil => exact h
  | cons p t ih =>
    rw [List.foldl_cons]
    exact ih _ (insertSorted_sortedKeys p.1 p.2 m h)

theorem insertAllDocs_sortedKeys (m : List Doc) (t : JSTable) (h : SortedKeys m) :
    SortedKeys (insertAllDocs m t) :=
  insertFold_sortedKeys t.documents m h

theorem tableFold_sortedKeys (ts : List JSTable) (m : List Doc) (h : SortedKeys m) :
    SortedKeys (ts.foldl insertAllDocs m) := by
  induction ts generalizing m with
  | nil => exact h
  | cons t rest ih =>
    rw [List.foldl_cons]
    exact ih _ (insertAllDocs_sortedKeys m t h)

theorem lookup_insertAllDocs (m : List Doc) (t : JSTable) (id : String)
    (hnd : (t.documents.map Prod.fst).Nodup) :
    assocLookup (insertAllDocs m t) id =
      match assocLookup t.documents id with
      | some v => some v
      | none => assocLookup m id :=
  lookup_insertFold t.documents m id hnd

theorem lastHitTV_cons (t : JSTable) (rest : List JSTable) (id : String) :
    lastHitTV (t :: rest) id =
      (match lastHitTV rest id with
        | some p => some p
        | none =>
          match assocLookup t.documents id with
          | some v => some (t.timestamp, v)
          | none => none) := rfl

theorem lookup_tableFold (ts : List JSTable) (m : List Doc) (id : String)
    (hnd : ∀ t ∈ ts, (t.documents.map Prod.fst).Nodup) :
    assocLookup (ts.foldl insertAllDocs m) id =
      match lastHitTV ts id with
      | some p => some p.2
      | none => assocLookup m id := by
  induction ts generalizing m with
  | nil => rfl
  | cons t rest ih =>
    rw [List.foldl_cons, ih _ (fun u hu => hnd u (List.mem_cons_of_mem _ hu)),
      lastHitTV_cons]
    cases hrest : lastHitTV rest id with
    | some p => rfl
    | none =>
      rw [lookup_insertAllDocs m t id (hnd t (List.mem_cons_self _ _))]
      cases ht : assocLookup t.documents id with
      | some v => rfl
      | none => rfl

theorem mem_insertByTs (t : JSTable) (l : List JSTable) (u : JSTable) :
    u ∈ insertByTs t l ↔ u = t ∨ u ∈ l := by
  induction l with
  | nil => simp [insertByTs]
  | cons w ws ih =>
    unfold insertByTs
    by_cases h : w.timestamp < t.timestamp
    · rw [if_pos h]
      simp only [List.mem_cons, ih]
      tauto
    · rw [if_neg h]
      simp only [List.mem_cons]

theorem insertByTs_sorted (t : JSTable) (l : List JSTable)
    (h : l.Pairwise (fun a b => a.timestamp ≤ b.timestamp)) :
    (insertByTs t l).Pairwise (fun a b => a.timestamp ≤ b.timestamp) := by
  induction l with
  | nil => simp [insertByTs]
  | cons w ws ih =>
    rw [List.pairwise_cons] at h
    obtain ⟨hall, hws⟩ := h
    unfold insertByTs
    by_cases hlt : w.timestamp < t.timestamp
    · rw [if_pos hlt]
      rw [List.pairwise_cons]
      constructor
      · intro u hu
        rcases (mem_insertByTs t ws u).mp hu with hu | hu
        · rw [hu]
          omega
        · exact hall u hu
      · exact ih hws
    · rw [if_neg hlt]
      rw [List.pairwise_cons]
      constructor
      · intro u hu
        rcases List.mem_cons.mp hu with hu | hu
        · rw [hu]
          omega
        · have := hall u hu
          omega
      · rw [List.pairwise_cons]
        exact ⟨hall, hws⟩

theorem sortByTs_sorted (l : List JSTable) :
    (sortByTs l).Pairwise (fun a b => a.timestamp ≤ b.timestamp) := by
  induction l with
  | nil => simp [sortByTs]
  | cons t rest ih => exact insertByTs_sorted t _ ih

theorem mem_sortByTs (l : List JSTable) (u : JSTable) : u ∈ sortByTs l ↔ u ∈ l := by
  induction l with
  | nil => simp [sortByTs]
  | cons t rest ih =>
    show u ∈ insertByTs t (sortByTs rest) ↔ _
    rw [mem_insertByTs]
    simp [ih]

theorem lastHitTV_mem (l : List JSTable) (id : String) (p : Nat × Value)
    (h : lastHitTV l id = some p) :
    ∃ w ∈ l, w.timestamp = p.1 ∧ assocLookup w.documents id = some p.2 := by
  induction l with
  | nil => cases h
  | cons t rest ih =>
    unfold lastHitTV at h
    cases hrest : lastHitTV rest id with
    | some q =>
      rw [hrest] at h
      cases h
      obtain ⟨w, hw, hts, hl⟩ := ih hrest
      exact ⟨w, List.mem_cons_of_mem _ hw, hts, hl⟩
    | none =>
      rw [hrest] at h
      cases ht : assocLookup t.documents id with
      | some v =>
        rw [ht] at h
        cases h
        exact ⟨t, List.mem_cons_self _ _, rfl, ht⟩
      | none =>
        rw [ht] at h
        cases h

theorem lastHitTV_insertByTs (t : JSTable) (s : List JSTable) (id : String)
    (hs : s.Pairwise (fun a b => a.timestamp ≤ b.timestamp)) :
    lastHitTV (insertByTs t s) id =
      (match lastHitTV s id, assocLookup t.documents id with
        | none, none => none
        | none, some v => some (t.timestamp, v)
        | some p, none => some p
        | some p, some vt =>
          if t.timestamp > p.1 then some (t.timestamp, vt) else some p) := by
  induction s with
  | nil =>
    show lastHitTV [t] id = _
    rw [lastHitTV_cons]
    cases ht : assocLookup t.documents id <;> rfl
  | cons u us ih =>
    rw [List.pairwise_cons] at hs
    obtain ⟨hall, hus⟩ := hs
    unfold insertByTs
    by_cases hu : u.timestamp < t.timestamp
    · rw [if_pos hu, lastHitTV_cons, ih hus, lastHitTV_cons]
      cases hrest : lastHitTV us id with
      | some p =>
        cases ht : assocLookup t.documents id with
        | some vt =>
          by_cases hcmp : t.timestamp > p.1
          · simp only [if_pos hcmp]
          · simp only [if_neg hcmp]
        | none => rfl
      | none =>
        cases ht : assocLookup t.documents id with
        | some vt =>
          cases hul : assocLookup u.documents id with
          | some vu =>
            have : t.timestamp > u.timestamp := hu
            simp [this]
          | none => rfl
        | none =>
          cases hul : assocLookup u.documents id with
          | some vu => rfl
          | none => rfl
    · rw [if_neg hu, lastHitTV_cons, lastHitTV_cons]
      cases hrest : lastHitTV (u :: us) id with
      | some p =>
        obtain ⟨w, hw, hts, _⟩ := lastHitTV_mem (u :: us) id p hrest
        have hwts : u.timestamp ≤ w.timestamp := by
          rcases List.mem_cons.mp hw with hw2 | hw2
          · rw [hw2]
          · exact hall w hw2
        have hple : ¬t.timestamp > p.1 := by
          rw [← hts]
          omega
        rw [lastHitTV_cons] at hrest
        rw [hrest]
        cases ht : assocLookup t.documents id with
        | some vt => simp [hple]
        | none => rfl
      | none =>
        rw [lastHitTV_cons] at hrest
        rw [hrest]
        cases ht : assocLookup t.documents id <;> rfl

theorem claimWinner_cons (t : JSTable) (rest : List JSTable) (id : String) :
    claimWinner (t :: rest) id =
      (match claimWinner rest id, assocLookup t.documents id with
        | none, none => none
        | none, some v => some (t.timestamp, v)
        | some (ts, v), none => some (ts, v)
        | some (ts, v), some vt =>
          if t.timestamp > ts then some (t.timestamp, vt) else some (ts, v)) := rfl

theorem lastHitTV_sortByTs (tables : List JSTable) (id : String) :
    lastHitTV (sortByTs tables) id = claimWinner tables id := by
  induction tables with
  | nil => rfl
  | cons t rest ih =>
    show lastHitTV (insertByTs t (sortByTs rest)) id = _
    rw [lastHitTV_insertByTs t _ id (sortByTs_sorted rest), ih, claimWinner_cons]
    cases hw : claimWinner rest id with
    | some p =>
      obtain ⟨ts0, v⟩ := p
      cases ht : assocLookup t.documents id <;> rfl
    | none =>
      cases ht : assocLookup t.documents id <;> rfl

theorem merge_lookup (tables : List JSTable) (id : String)
    (hsk : ∀ t ∈ tables, SortedKeys t.documents) :
    assocLookup (merge_jstables tables).documents id =
      (match claimWinner tables id with
        | some p => if p.2.isNull then none else some p.2
        | none => none) := by
  have hfold : SortedKeys ((sortByTs tables).foldl insertAllDocs []) :=
    tableFold_sortedKeys _ [] (by simp [SortedKeys])
  have hnd2 : ∀ t ∈ sortByTs tables, (t.documents.map Prod.fst).Nodup := by
    intro t ht
    exact sortedKeys_nodup _ (hsk t ((mem_sortByTs tables t).mp ht))
  show assocLookup (retainNonNull ((sortByTs tables).foldl insertAllDocs [])) id = _
  rw [lookup_retainNonNull _ id (sortedKeys_nodup _ hfold)]
  rw [lookup_tableFold _ [] id hnd2]
  rw [lastHitTV_sortByTs]
  cases hw : claimWinner tables id with
  | some p => rfl
  | none => rfl

theorem fold_ts_acc_le (l : List JSTable) (acc : Nat) :
    acc ≤ l.foldl (fun a t => if t.timestamp > a then t.timestamp else a) acc := by
  induction l generalizing acc with
  | nil => exact le_rfl
  | cons x l ih =>
    rw [List.foldl_cons]
    calc acc ≤ (if x.timestamp > acc then x.timestamp else acc) := by
          by_cases h : x.timestamp > acc
          · rw [if_pos h]
            omega
          · rw [if_neg h]
      _ ≤ _ := ih _

theorem fold_ts_ub (l : List JSTable) (acc : Nat) (u : JSTable) (hu : u ∈ l) :
    u.timestamp ≤ l.foldl (fun a t => if t.timestamp > a then t.timestamp else a) acc := by
  induction l generalizing acc with
  | nil => cases hu
  | cons x l ih =>
    rw [List.foldl_cons]
    rcases List.mem_cons.mp hu with h | h
    · subst h
      calc u.timestamp ≤ (if u.timestamp > acc then u.timestamp else acc) := by
            by_cases hc : u.timestamp > acc
            · rw [if_pos hc]
            · rw [if_neg hc]
              omega
        _ ≤ _ := fold_ts_acc_le l _
    · exact ih _ h

theorem fold_ts_attained (l : List JSTable) (acc : Nat) :
    l.foldl (fun a t => if t.timestamp > a then t.timestamp else a) acc = acc ∨
      ∃ u ∈ l, l.foldl (fun a t => if t.timestamp > a then t.timestamp else a) acc =
        u.timestamp := by
  induction l generalizing acc with
  | nil => exact Or.inl rfl
  | cons x l ih =>
    rw [List.foldl_cons]
    by_cases hc : x.timestamp > acc
    · rw [if_pos hc]
      rcases ih x.timestamp with h | ⟨u, hu, h⟩
      · exact Or.inr ⟨x, List.mem_cons_self _ _, h⟩
      · exact Or.inr ⟨u, List.mem_cons_of_mem _ hu, h⟩
    · rw [if_neg hc]
      rcases ih acc with h | ⟨u, hu, h⟩
      · exact Or.inl h
      · exact Or.inr ⟨u, List.mem_cons_of_mem _ hu, h⟩

/-! ## C10 — conflict resolution of `merge_jstables` -/

/-- C10 (counterexample): `"id1"` occurs in both inputs and its
greatest-timestamp document is the tombstone `null`; the claim says the
merged segment maps `"id1"` to that document, but `merge_jstables`
drops tombstones, so the merged segment has no entry for `"id1"` at
all. -/
theorem c10_counterexample :
    countContaining [c10older, c10newer] "id1" = 2 ∧
    claimWinner [c10older, c10newer] "id1" = some (200, .null) ∧
    assocLookup (merge_jstables [c10older, c10newer]).documents "id1" = none := by
  refine ⟨rfl, rfl, by rfl⟩

/-- C10 (amended): for a non-empty slice of segments (with the
`BTreeMap` sorted-keys invariant), the merged segment's timestamp is
the maximum of the input timestamps, its collection name is the first
input's, and every id held by more than one input maps to the document
of the input with the greatest timestamp — equal timestamps resolved in
favor of the later input — *except* that an id whose winning document
is the tombstone `null` is dropped from the merged segment. -/
theorem c10_merge_resolution (tables : List JSTable) (hne : tables ≠ [])
    (hsk : ∀ t ∈ tables, SortedKeys t.documents) :
    (∀ t ∈ tables, t.timestamp ≤ (merge_jstables tables).timestamp) ∧
    (∃ t ∈ tables, (merge_jstables tables).timestamp = t.timestamp) ∧
    (∀ t0, tables.head? = some t0 → (merge_jstables tables).collection = t0.collection) ∧
    (∀ id, 2 ≤ countContaining tables id →
      assocLookup (merge_jstables tables).documents id =
        (match claimWinner tables id with
          | some p => if p.2.isNull then none else some p.2
          | none => none)) := by
  refine ⟨?_, ?_, ?_, fun id _ => merge_lookup tables id hsk⟩
  · intro t ht
    exact fold_ts_ub _ 0 t ((mem_sortByTs tables t).mpr ht)
  · rcases fold_ts_attained (sortByTs tables) 0 with h | ⟨u, hu, h⟩
    · match tables, hne with
      | t :: rest, _ =>
        refine ⟨t, List.mem_cons_self _ _, ?_⟩
        have hub : t.timestamp ≤ (merge_jstables (t :: rest)).timestamp :=
          fold_ts_ub _ 0 t ((mem_sortByTs _ t).mpr (List.mem_cons_self _ _))
        have : (merge_jstables (t :: rest)).timestamp = 0 := h
        omega
    · exact ⟨u, (mem_sortByTs tables u).mp hu, h⟩
  · intro t0 h0
    match tables, hne with
    | t :: rest, _ =>
      rw [show ((t :: rest).head? : Option JSTable) = some t from rfl] at h0
      cases h0
      rfl

/-- C10 witness: the two fixture segments (older live doc, newer
tombstone, equal collection name). -/
theorem c10_witness :
    ([c10older, c10newer] ≠ ([] : List JSTable)) ∧
    (∀ t ∈ [c10older, c10newer], SortedKeys t.documents) ∧
    ((∀ t ∈ [c10older, c10newer],
        t.timestamp ≤ (merge_jstables [c10older, c10newer]).timestamp) ∧
      (∃ t ∈ [c10older, c10newer],
        (merge_jstables [c10older, c10newer]).timestamp = t.timestamp) ∧
      (∀ t0, ([c10older, c10newer] : List JSTable).head? = some t0 →
        (merge_jstables [c10older, c10newer]).collection = t0.collection) ∧
      (∀ id, 2 ≤ countContaining [c10older, c10newer] id →
        assocLookup (merge_jstables [c10older, c10newer]).documents id =
          (match claimWinner [c10older, c10newer] id with
            | some p => if p.2.isNull then none else some p.2
            | none => none))) := by
  have hne : [c10older, c10newer] ≠ ([] : List JSTable) := by simp
  have hsk : ∀ t ∈ [c10older, c10newer], SortedKeys t.documents := by
    intro t ht
    rcases List.mem_cons.mp ht with h | h
    · subst h
      simp [SortedKeys, c10older]
    · rcases List.mem_cons.mp h with h2 | h2
      · subst h2
        simp [SortedKeys, c10newer]
      · cases h2
  exact ⟨hne, hsk, c10_merge_resolution [c10older, c10newer] hne hsk⟩

/-! ## C4 — compaction -/

/-- C4: after `compact()` the collection holds exactly one segment —
the merged one — and no id whose winning (greatest-timestamp, ties to
the later generation) value is a tombstone appears in the surviving
segment's key set. -/
theorem c4_compaction (c : Collection) (hsk : ∀ t ∈ c.segments, SortedKeys t.documents) :
    (collectionCompact c).segments.length = 1 ∧
    (collectionCompact c).segments = [merge_jstables c.segments] ∧
    (∀ id p, claimWinner c.segments id = some p → p.2.isNull = true →
      id ∉ (merge_jstables c.segments).documents.map Prod.fst) := by
  refine ⟨rfl, rfl, fun id p hw hn => ?_⟩
  rw [← lookup_eq_none_iff]
  rw [merge_lookup c.segments id hsk, hw]
  simp [hn]

/-- C4 witness: a collection holding the two fixture segments; the
winner for `"id1"` is the newer tombstone, and `"id1"` is absent from
the compacted segment. -/
theorem c4_witness :
    (∀ t ∈ c4col.segments, SortedKeys t.documents) ∧
    claimWinner c4col.segments "id1" = some (200, Value.null) ∧
    (Value.null.isNull = true) ∧
    (collectionCompact c4col).segments.length = 1 ∧
    "id1" ∉ (merge_jstables c4col.segments).documents.map Prod.fst := by
  have hsk : ∀ t ∈ c4col.segments, SortedKeys t.documents := by
    intro t ht
    rcases List.mem_cons.mp ht with h | h
    · subst h
      simp [SortedKeys, c10older]
    · rcases List.mem_cons.mp h with h2 | h2
      · subst h2
        simp [SortedKeys, c10newer]
      · cases h2
  refine ⟨hsk, rfl, rfl, (c4_compaction c4col hsk).1, ?_⟩
  exact (c4_compaction c4col hsk).2.2 "id1" (200, Value.null) rfl rfl

/-! ## C1 — the merged scan iterator -/

theorem updateMin_hk_none (acc : Option String) : updateMin acc none = acc := rfl

theorem updateMin_none_some (k : String) : updateMin none (some k) = some k := rfl

theorem updateMin_some_some (a k : String) :
    updateMin (some a) (some k) = if strLt k a then some k else some a := rfl

theorem peekMinAux_cons (acc : Option String) (s : Source) (ss : List Source) :
    peekMinAux acc (s :: ss) = peekMinAux (updateMin acc (headKey s)) ss := rfl

theorem peekMinAux_some_ne_none (m : String) (ss : List Source) :
    peekMinAux (some m) ss ≠ none := by
  induction ss generalizing m with
  | nil => simp [peekMinAux]
  | cons s ss ih =>
    rw [peekMinAux_cons]
    cases hk : headKey s with
    | none =>
      rw [updateMin_hk_none]
      exact ih m
    | some k =>
      rw [updateMin_some_some]
      by_cases hc : strLt k m = true
      · rw [if_pos hc]
        exact ih k
      · rw [if_neg hc]
        exact ih m

theorem peekMin_none_all_nil (ss : List Source) (h : peekMin ss = none) :
    ∀ s ∈ ss, s = [] := by
  unfold peekMin at h
  induction ss with
  | nil => intro s hs; cases hs
  | cons s ss ih =>
    intro u hu
    rw [peekMinAux_cons] at h
    cases hk : headKey s with
    | none =>
      rw [hk, updateMin_hk_none] at h
      rcases List.mem_cons.mp hu with h2 | h2
      · subst h2
        cases u with
        | nil => rfl
        | cons p t => simp [headKey] at hk
      · exact ih h u h2
    | some k =>
      rw [hk] at h
      cases acc : (none : Option String) with
      | some a => cases acc
      | none =>
        rw [updateMin_none_some] at h
        exact absurd h (peekMinAux_some_ne_none k ss)

theorem firstHit_all_nil (ss : List Source) (h : ∀ s ∈ ss, s = []) (id : String) :
    firstHit ss id = none := by
  induction ss with
  | nil => rfl
  | cons s ss ih =>
    unfold firstHit
    rw [h s (List.mem_cons_self _ _)]
    exact ih (fun u hu => h u (List.mem_cons_of_mem _ hu))

theorem peekMinAux_le (ss : List Source) (acc : Option String) (m : String)
    (h : peekMinAux acc ss = some m) :
    (∀ a, acc = some a → strLt a m = false) ∧
    (∀ s ∈ ss, ∀ k, headKey s = some k → strLt k m = false) := by
  induction ss generalizing acc with
  | nil =>
    unfold peekMinAux at h
    refine ⟨fun a ha => ?_, fun s hs => absurd hs (List.not_mem_nil s)⟩
    rw [ha] at h
    cases h
    exact strLt_irrefl m
  | cons s ss ih =>
    rw [peekMinAux_cons] at h
    obtain ⟨ih1, ih2⟩ := ih _ h
    constructor
    · intro a ha
      subst ha
      cases hk : headKey s with
      | none =>
        rw [hk, updateMin_hk_none] at ih1
        exact ih1 a rfl
      | some k =>
        rw [hk, updateMin_some_some] at ih1
        by_cases hc : strLt k a = true
        · have hkm : strLt k m = false := ih1 k (by rw [if_pos hc])
          cases ham : strLt a m with
          | false => rfl
          | true =>
            have := strLt_trans k a m hc ham
            rw [this] at hkm
            cases hkm
        · exact ih1 a (by rw [if_neg hc])
    · intro u hu k hk
      rcases List.mem_cons.mp hu with h2 | h2
      · subst h2
        rw [hk] at ih1
        cases acc with
        | none =>
          rw [updateMin_none_some] at ih1
          exact ih1 k rfl
        | some a =>
          rw [updateMin_some_some] at ih1
          by_cases hc : strLt k a = true
          · exact ih1 k (by rw [if_pos hc])
          · have ham : strLt a m = false := ih1 a (by rw [if_neg hc])
            rw [Bool.not_eq_true] at hc
            cases hkm : strLt k m with
            | false => rfl
            | true =>
              cases hak : strLt a k with
              | true =>
                have := strLt_trans a k m hak hkm
                rw [this] at ham
                cases ham
              | false =>
                have hek := strLt_conn a k hak hc
                rw [← hek] at hkm
                rw [hkm] at ham
                cases ham
      · exact ih2 u h2 k hk

theorem peekMinAux_attained (ss : List Source) (acc : Option String) (m : String)
    (h : peekMinAux acc ss = some m) :
    acc = some m ∨ ∃ s ∈ ss, headKey s = some m := by
  induction ss generalizing acc with
  | nil =>
    unfold peekMinAux at h
    exact Or.inl h
  | cons s ss ih =>
    rw [peekMinAux_cons] at h
    rcases ih _ h with h2 | ⟨u, hu, hku⟩
    · cases hk : headKey s with
      | none =>
        rw [hk, updateMin_hk_none] at h2
        exact Or.inl h2
      | some k =>
        rw [hk] at h2
        cases acc with
        | none =>
          rw [updateMin_none_some] at h2
          cases h2
          exact Or.inr ⟨s, List.mem_cons_self _ _, hk⟩
        | some a =>
          rw [updateMin_some_some] at h2
          by_cases hc : strLt k a = true
          · rw [if_pos hc] at h2
            cases h2
            exact Or.inr ⟨s, List.mem_cons_self _ _, hk⟩
          · rw [if_neg hc] at h2
            exact Or.inl h2
    · exact Or.inr ⟨u, List.mem_cons_of_mem _ hu, hku⟩

theorem firstHeadVal_cons_cons (m k : String) (v : Value) (t : List Doc)
    (ss : List Source) :
    firstHeadVal m (((k, v) :: t) :: ss) =
      if k = m then some v else firstHeadVal m ss := rfl

theorem firstHeadVal_nil_cons (m : String) (ss : List Source) :
    firstHeadVal m ([] :: ss) = firstHeadVal m ss := rfl

theorem popIf_cons (m k : String) (v : Value) (t : List Doc) :
    popIf m ((k, v) :: t) = if k = m then t else (k, v) :: t := rfl

theorem popIf_nil (m : String) : popIf m [] = [] := rfl

theorem consumeRound_eq (m : String) (ss : List Source) :
    consumeRound m ss = (firstHeadVal m ss, ss.map (popIf m)) := by
  induction ss with
  | nil => rfl
  | cons s ss ih =>
    cases s with
    | nil =>
      show (let p := consumeRound m ss; (p.1, [] :: p.2)) = _
      rw [ih]
      rw [firstHeadVal_nil_cons, List.map_cons, popIf_nil]
    | cons p t =>
      obtain ⟨k, v⟩ := p
      rw [firstHeadVal_cons_cons, List.map_cons, popIf_cons]
      by_cases hc : k = m
      · show (if k = m then
            let q := consumeRound m ss
            ((some v : Option Value), t :: q.2)
          else
            let q := consumeRound m ss
            (q.1, ((k, v) :: t) :: q.2)) = _
        rw [if_pos hc, if_pos hc, if_pos hc, ih]
      · show (if k = m then
            let q := consumeRound m ss
            ((some v : Option Value), t :: q.2)
          else
            let q := consumeRound m ss
            (q.1, ((k, v) :: t) :: q.2)) = _
        rw [if_neg hc, if_neg hc, if_neg hc, ih]

theorem assocLookup_some_mem (s : List Doc) (id : String) (v : Value)
    (h : assocLookup s id = some v) : (id, v) ∈ s := by
  induction s with
  | nil => cases h
  | cons p t ih =>
    obtain ⟨k, w⟩ := p
    rw [assocLookup_cons] at h
    by_cases hc : k = id
    · rw [if_pos hc] at h
      cases h
      rw [hc]
      exact List.mem_cons_self _ _
    · rw [if_neg hc] at h
      exact List.mem_cons_of_mem _ (ih h)

theorem firstHit_some_mem (ss : List Source) (id : String) (v : Value)
    (h : firstHit ss id = some v) : ∃ s ∈ ss, (id, v) ∈ s := by
  induction ss with
  | nil => cases h
  | cons s ss ih =>
    unfold firstHit at h
    cases hl : assocLookup s id with
    | some w =>
      rw [hl] at h
      cases h
      exact ⟨s, List.mem_cons_self _ _, assocLookup_some_mem s id v hl⟩
    | none =>
      rw [hl] at h
      obtain ⟨u, hu, hm⟩ := ih h
      exact ⟨u, List.mem_cons_of_mem _ hu, hm⟩

theorem sorted_source_head_key (s : Source) (k0 : String) (v0 : Value) (k : String)
    (v : Value) (hs : SortedKeys ((k0, v0) :: s)) (hm : (k, v) ∈ (k0, v0) :: s)
    (hne : (k, v) ≠ (k0, v0)) : strLt k0 k = true := by
  rw [SortedKeys, List.pairwise_cons] at hs
  rcases List.mem_cons.mp hm with h | h
  · exact absurd h hne
  · exact hs.1 (k, v) h

theorem source_contains_min_at_head (sources : List Source) (m : String)
    (hmin : peekMin sources = some m)
    (hsorted : ∀ s ∈ sources, SortedKeys s)
    (s : Source) (hs : s ∈ sources) (v : Value) (hm : (m, v) ∈ s) :
    ∃ t, s = (m, v) :: t := by
  have hle := (peekMinAux_le sources none m hmin).2
  cases s with
  | nil => cases hm
  | cons p t =>
    obtain ⟨k0, v0⟩ := p
    have hk0 : strLt k0 m = false := hle _ hs k0 rfl
    by_cases hc : (m, v) = (k0, v0)
    · exact ⟨t, by rw [hc]⟩
    · have := sorted_source_head_key t k0 v0 m v (hsorted _ hs) hm hc
      rw [this] at hk0
      cases hk0

theorem min_le_all_keys (sources : List Source) (m : String)
    (hmin : peekMin sources = some m) (hsorted : ∀ s ∈ sources, SortedKeys s) :
    ∀ s ∈ sources, ∀ k v, (k, v) ∈ s → strLt k m = false := by
  intro s hs k v hkv
  have hle := (peekMinAux_le sources none m hmin).2
  cases s with
  | nil => cases hkv
  | cons p t =>
    obtain ⟨k0, v0⟩ := p
    have hk0 : strLt k0 m = false := hle _ hs k0 rfl
    by_cases hc : (k, v) = (k0, v0)
    · cases hc
      exact hk0
    · have hlt := sorted_source_head_key t k0 v0 k v (hsorted _ hs) hkv hc
      cases hkm : strLt k m with
      | false => rfl
      | true =>
        have := strLt_trans k0 k m hlt hkm
        rw [this] at hk0
        cases hk0

theorem lookup_tail_none (k0 : String) (v0 : Value) (t : List Doc) (m : String)
    (hs : SortedKeys ((k0, v0) :: t)) (hk0 : strLt k0 m = false) :
    assocLookup t m = none := by
  cases hl : assocLookup t m with
  | none => rfl
  | some w =>
    have hmem := assocLookup_some_mem t m w hl
    rw [SortedKeys, List.pairwise_cons] at hs
    have := hs.1 (m, w) hmem
    rw [this] at hk0
    cases hk0

theorem firstHeadVal_eq_firstHit (sources : List Source) (m : String)
    (hsorted : ∀ s ∈ sources, SortedKeys s)
    (hb : ∀ s ∈ sources, ∀ k v, (k, v) ∈ s → strLt k m = false) :
    firstHeadVal m sources = firstHit sources m := by
  induction sources with
  | nil => rfl
  | cons s ss ih =>
    have ih2 := ih (fun u hu => hsorted u (List.mem_cons_of_mem _ hu))
      (fun u hu => hb u (List.mem_cons_of_mem _ hu))
    cases s with
    | nil =>
      rw [firstHeadVal_nil_cons, ih2]
      rfl
    | cons p t =>
      obtain ⟨k0, v0⟩ := p
      rw [firstHeadVal_cons_cons]
      unfold firstHit
      rw [assocLookup_cons]
      by_cases hc : k0 = m
      · rw [if_pos hc, if_pos hc]
      · rw [if_neg hc, if_neg hc]
        have hk0 : strLt k0 m = false :=
          hb _ (List.mem_cons_self _ _) k0 v0 (List.mem_cons_self _ _)
        rw [lookup_tail_none k0 v0 t m (hsorted _ (List.mem_cons_self _ _)) hk0, ih2]

theorem popIf_sorted (m : String) (s : Source) (h : SortedKeys s) :
    SortedKeys (popIf m s) := by
  cases s with
  | nil => exact h
  | cons p t =>
    obtain ⟨k, v⟩ := p
    rw [popIf_cons]
    by_cases hc : k = m
    · rw [if_pos hc]
      rw [SortedKeys, List.pairwise_cons] at h
      exact h.2
    · rw [if_neg hc]
      exact h

theorem lookup_popIf_ne (m : String) (s : Source) (id : String) (hid : id ≠ m) :
    assocLookup (popIf m s) id = assocLookup s id := by
  cases s with
  | nil => rfl
  | cons p t =>
    obtain ⟨k, v⟩ := p
    rw [popIf_cons]
    by_cases hc : k = m
    · rw [if_pos hc, assocLookup_cons, if_neg (fun h : k = id => hid (h ▸ hc.symm ▸ rfl))]
    · rw [if_neg hc]

theorem firstHit_popIf_ne (m : String) (sources : List Source) (id : String)
    (hid : id ≠ m) :
    firstHit (sources.map (popIf m)) id = firstHit sources id := by
  induction sources with
  | nil => rfl
  | cons s ss ih =>
    rw [List.map_cons]
    unfold firstHit
    rw [lookup_popIf_ne m s id hid, ih]

theorem lookup_popIf_m (m : String) (s : Source) (hs : SortedKeys s)
    (hb : ∀ k v, (k, v) ∈ s → strLt k m = false) :
    assocLookup (popIf m s) m = none := by
  cases s with
  | nil => rfl
  | cons p t =>
    obtain ⟨k, v⟩ := p
    rw [popIf_cons]
    by_cases hc : k = m
    · rw [if_pos hc]
      subst hc
      exact lookup_tail_none k v t k hs (strLt_irrefl k)
    · rw [if_neg hc, assocLookup_cons, if_neg hc]
      exact lookup_tail_none k v t m hs (hb k v (List.mem_cons_self _ _))

theorem firstHit_popIf_m (m : String) (sources : List Source)
    (hsorted : ∀ s ∈ sources, SortedKeys s)
    (hb : ∀ s ∈ sources, ∀ k v, (k, v) ∈ s → strLt k m = false) :
    firstHit (sources.map (popIf m)) m = none := by
  induction sources with
  | nil => rfl
  | cons s ss ih =>
    rw [List.map_cons]
    unfold firstHit
    rw [lookup_popIf_m m s (hsorted _ (List.mem_cons_self _ _))
      (fun k v hkv => hb s (List.mem_cons_self _ _) k v hkv)]
    exact ih (fun u hu => hsorted u (List.mem_cons_of_mem _ hu))
      (fun u hu => hb u (List.mem_cons_of_mem _ hu))

theorem mem_popIf (m : String) (s : Source) (p : Doc) (h : p ∈ popIf m s) : p ∈ s := by
  cases s with
  | nil => exact h
  | cons q t =>
    obtain ⟨k, v⟩ := q
    rw [popIf_cons] at h
    by_cases hc : k = m
    · rw [if_pos hc] at h
      exact List.mem_cons_of_mem _ h
    · rw [if_neg hc] at h
      exact h

theorem popIf_keys_gt (m : String) (sources : List Source)
    (hsorted : ∀ s ∈ sources, SortedKeys s)
    (hb : ∀ s ∈ sources, ∀ k v, (k, v) ∈ s → strLt k m = false)
    (s2 : Source) (hs2 : s2 ∈ sources.map (popIf m)) (k : String) (v : Value)
    (hkv : (k, v) ∈ s2) : strLt m k = true := by
  obtain ⟨s, hs, rfl⟩ := List.mem_map.mp hs2
  have hmem := mem_popIf m s (k, v) hkv
  have hkm : strLt k m = false := hb s hs k v hmem
  have hne : k ≠ m := by
    intro hc
    subst hc
    have := lookup_popIf_m k s (hsorted s hs) (fun k2 v2 h2 => hb s hs k2 v2 h2)
    rw [lookup_eq_none_iff] at this
    exact this (List.mem_map.mpr ⟨(k, v), hkv, rfl⟩)
  cases hmk : strLt m k with
  | true => rfl
  | false => exact absurd (strLt_conn k m hkm hmk) hne

theorem totalLen_zero_all_nil (sources : List Source) (h : totalLen sources = 0) :
    ∀ s ∈ sources, s = [] := by
  induction sources with
  | nil => intro s hs; cases hs
  | cons s ss ih =>
    have hs0 : s.length = 0 ∧ totalLen ss = 0 := by
      unfold totalLen at h ⊢
      rw [List.map_cons, List.sum_cons] at h
      omega
    intro u hu
    rcases List.mem_cons.mp hu with h2 | h2
    · subst h2
      exact List.length_eq_zero.mp hs0.1
    · exact ih hs0.2 u h2


theorem totalLen_map_popIf_le (m : String) (sources : List Source) :
    totalLen (sources.map (popIf m)) ≤ totalLen sources := by
  induction sources with
  | nil => exact le_rfl
  | cons s ss ih =>
    unfold totalLen at ih ⊢
    rw [List.map_cons, List.map_cons, List.sum_cons, List.map_cons, List.sum_cons]
    have hlen : (popIf m s).length ≤ s.length := by
      cases s with
      | nil => exact le_rfl
      | cons p t =>
        obtain ⟨k, v⟩ := p
        rw [popIf_cons]
        by_cases hc : k = m
        · rw [if_pos hc]
          simp
        · rw [if_neg hc]
    omega

theorem totalLen_map_popIf_lt (m : String) (sources : List Source)
    (hat : ∃ s ∈ sources, headKey s = some m) :
    totalLen (sources.map (popIf m)) < totalLen sources := by
  induction sources with
  | nil =>
    obtain ⟨s, hs, _⟩ := hat
    cases hs
  | cons s ss ih =>
    unfold totalLen
    rw [List.map_cons, List.map_cons, List.sum_cons, List.map_cons, List.sum_cons]
    obtain ⟨u, hu, hku⟩ := hat
    rcases List.mem_cons.mp hu with h2 | h2
    · subst h2
      cases u with
      | nil => cases hku
      | cons p t =>
        obtain ⟨k, v⟩ := p
        have hk : k = m := by
          simp [headKey] at hku
          exact hku
        rw [popIf_cons, if_pos hk]
        have := totalLen_map_popIf_le m ss
        unfold totalLen at this
        simp only [List.length_cons]
        omega
    · have hlt := ih ⟨u, h2, hku⟩
      unfold totalLen at hlt
      have hlen : (popIf m s).length ≤ s.length := by
        cases s with
        | nil => exact le_rfl
        | cons p t =>
          obtain ⟨k, v⟩ := p
          rw [popIf_cons]
          by_cases hc : k = m
          · rw [if_pos hc]
            simp
          · rw [if_neg hc]
      omega

theorem mergedRun_succ (fuel : Nat) (sources : List Source) :
    mergedRun (fuel + 1) sources =
      (match peekMin sources with
        | none => []
        | some m =>
          match (consumeRound m sources).1 with
          | some v =>
            if v.isNull then mergedRun fuel (consumeRound m sources).2
            else (m, v) :: mergedRun fuel (consumeRound m sources).2
          | none => mergedRun fuel (consumeRound m sources).2) := rfl

theorem mergedRun_characterization (fuel : Nat) :
    ∀ sources : List Source, totalLen sources ≤ fuel →
      (∀ s ∈ sources, SortedKeys s) →
      (mergedRun fuel sources).Pairwise (fun a b => strLt a.1 b.1 = true) ∧
      (∀ id v, (id, v) ∈ mergedRun fuel sources ↔
        (firstHit sources id = some v ∧ v.isNull = false)) := by
  induction fuel with
  | zero =>
    intro sources hlen _
    have hnil : ∀ s ∈ sources, s = [] :=
      totalLen_zero_all_nil sources (Nat.le_zero.mp hlen)
    refine ⟨List.Pairwise.nil, fun id v => ?_⟩
    constructor
    · intro h
      cases h
    · intro ⟨h1, _⟩
      rw [firstHit_all_nil sources hnil id] at h1
      cases h1
  | succ f ih =>
    intro sources hlen hsorted
    cases hmin : peekMin sources with
    | none =>
      have hnil := peekMin_none_all_nil sources hmin
      rw [mergedRun_succ, hmin]
      refine ⟨List.Pairwise.nil, fun id v => ?_⟩
      constructor
      · intro h
        cases h
      · intro ⟨h1, _⟩
        rw [firstHit_all_nil sources hnil id] at h1
        cases h1
    | some m =>
      have hb := min_le_all_keys sources m hmin hsorted
      have hat : ∃ s ∈ sources, headKey s = some m := by
        rcases peekMinAux_attained sources none m hmin with h | h
        · cases h
        · exact h
      have hfh : firstHeadVal m sources = firstHit sources m :=
        firstHeadVal_eq_firstHit sources m hsorted hb
      have hlen2 : totalLen (sources.map (popIf m)) ≤ f := by
        have := totalLen_map_popIf_lt m sources hat
        omega
      have hsorted2 : ∀ s ∈ sources.map (popIf m), SortedKeys s := by
        intro s2 hs2
        obtain ⟨s, hs, rfl⟩ := List.mem_map.mp hs2
        exact popIf_sorted m s (hsorted s hs)
      obtain ⟨ihp, ihm⟩ := ih (sources.map (popIf m)) hlen2 hsorted2
      have hrec_m : ∀ v, (m, v) ∉ mergedRun f (sources.map (popIf m)) := by
        intro v hc
        have := (ihm m v).mp hc
        rw [firstHit_popIf_m m sources hsorted hb] at this
        cases this.1
      have hrec_gt : ∀ k w, (k, w) ∈ mergedRun f (sources.map (popIf m)) →
          strLt m k = true := by
        intro k w hc
        have h1 := ((ihm k w).mp hc).1
        obtain ⟨s2, hs2, hmem⟩ := firstHit_some_mem _ k w h1
        exact popIf_keys_gt m sources hsorted hb s2 hs2 k w hmem
      rw [mergedRun_succ, hmin]
      simp only [consumeRound_eq]
      rw [hfh]
      cases hv : firstHit sources m with
      | none =>
        refine ⟨ihp, fun id v => ?_⟩
        rw [ihm id v]
        by_cases hid : id = m
        · subst hid
          rw [firstHit_popIf_m id sources hsorted hb, hv]
        · rw [firstHit_popIf_ne m sources id hid]
      | some v0 =>
        have hred : (match some v0 with
            | some v =>
              if v.isNull = true then mergedRun f (sources.map (popIf m))
              else (m, v) :: mergedRun f (sources.map (popIf m))
            | none => mergedRun f (sources.map (popIf m)))
            = (if v0.isNull = true then mergedRun f (sources.map (popIf m))
              else (m, v0) :: mergedRun f (sources.map (popIf m))) := rfl
        rw [hred]
        by_cases hnull : v0.isNull
        · rw [if_pos hnull]
          refine ⟨ihp, fun id v => ?_⟩
          rw [ihm id v]
          by_cases hid : id = m
          · subst hid
            rw [firstHit_popIf_m id sources hsorted hb, hv]
            constructor
            · intro ⟨hc, _⟩
              cases hc
            · intro ⟨hc, hn⟩
              cases hc
              rw [hnull] at hn
              cases hn
          · rw [firstHit_popIf_ne m sources id hid]
        · rw [if_neg hnull]
          rw [Bool.not_eq_true] at hnull
          constructor
          · rw [List.pairwise_cons]
            exact ⟨fun p hp => hrec_gt p.1 p.2 hp, ihp⟩
          · intro id v
            rw [List.mem_cons, ihm id v]
            by_cases hid : id = m
            · subst hid
              rw [firstHit_popIf_m id sources hsorted hb, hv]
              constructor
              · intro hc
                rcases hc with hc | ⟨hc, _⟩
                · obtain ⟨-, h2⟩ := Prod.mk.injEq .. ▸ hc
                  exact ⟨by rw [h2], by rw [h2, hnull]⟩
                · cases hc
              · intro ⟨hc, _⟩
                cases hc
                exact Or.inl rfl
            · rw [firstHit_popIf_ne m sources id hid]
              constructor
              · intro hc
                rcases hc with hc | hc
                · obtain ⟨h1, -⟩ := Prod.mk.injEq .. ▸ hc
                  exact absurd h1 hid
                · exact hc
              · exact Or.inr

/-- C1: for every collection state (memtable plus any number of
segments, each with the `BTreeMap` sorted-key invariant), the merged
iterator behind `scan()` yields pairs in strictly ascending id order
(hence exactly one entry per id), where an id appears with value `v`
precisely when the highest-priority source holding the id — the
memtable first, then the segments newest-first — holds `v` and `v` is
not a tombstone.  Ids whose winning value is `null` are never
yielded. -/
theorem c1_merged_scan (c : Collection)
    (hmem : SortedKeys c.memtable)
    (hseg : ∀ t ∈ c.segments, SortedKeys t.documents) :
    (collectionScan c).Pairwise (fun a b => strLt a.1 b.1 = true) ∧
    ((collectionScan c).map Prod.fst).Nodup ∧
    (∀ id v, (id, v) ∈ collectionScan c ↔
      (firstHit (c.memtable :: (c.segments.map JSTable.documents).reverse) id = some v ∧
        v.isNull = false)) := by
  have hs : ∀ s ∈ c.memtable :: (c.segments.map JSTable.documents).reverse,
      SortedKeys s := by
    intro s hssrc
    rcases List.mem_cons.mp hssrc with h | h
    · subst h
      exact hmem
    · rw [List.mem_reverse] at h
      obtain ⟨t, ht, rfl⟩ := List.mem_map.mp h
      exact hseg t ht
  unfold collectionScan mergedAll
  obtain ⟨hp, hiff⟩ := mergedRun_characterization
    (totalLen (c.memtable :: (c.segments.map JSTable.documents).reverse))
    (c.memtable :: (c.segments.map JSTable.documents).reverse) le_rfl hs
  refine ⟨hp, ?_, hiff⟩
  have h2 : ((mergedRun
      (totalLen (c.memtable :: (c.segments.map JSTable.documents).reverse))
      (c.memtable :: (c.segments.map JSTable.documents).reverse)).map
        Prod.fst).Pairwise (fun a b => strLt a b = true) := by
    rw [List.pairwise_map]
    exact hp
  exact h2.imp (fun h => strLt_ne _ _ h)

/-- C1 witness: the fixture collection; the newer segment's live value
for `"a"` shadows the older tombstone, the memtable supplies `"b"`,
and the older segment supplies `"c"`. -/
theorem c1_witness :
    SortedKeys c1col.memtable ∧
    (∀ t ∈ c1col.segments, SortedKeys t.documents) ∧
    (collectionScan c1col).Pairwise (fun a b => strLt a.1 b.1 = true) ∧
    (∀ id v, (id, v) ∈ collectionScan c1col ↔
      (firstHit (c1col.memtable :: (c1col.segments.map JSTable.documents).reverse) id =
          some v ∧ v.isNull = false)) := by
  have hmem : SortedKeys c1col.memtable := by
    simp [SortedKeys, c1col]
  have hseg : ∀ t ∈ c1col.segments, SortedKeys t.documents := by
    intro t ht
    rcases List.mem_cons.mp ht with h | h
    · subst h
      simp [SortedKeys, c1segOld]
      rfl
    · rcases List.mem_cons.mp h with h2 | h2
      · subst h2
        simp [SortedKeys, c1segNew]
      · cases h2
  have := c1_merged_scan c1col hmem hseg
  exact ⟨hmem, hseg, this.1, this.2.2⟩
